import Mathlib

/-! Pairwise preference elicitation of the response_time repository, `logic.js`.

A shallow embedding of `logic.js`: the keyword loader, the `KeywordManager`
cursor, the keyword and image elicitation pages as event-driven state
machines, and the completion stage with its weighted-sum aggregation.

Conventions of the embedding.
* JavaScript numbers that carry priorities and times are rationals, so all
  arithmetic is exact.
* `undefined` is `none`; an expression `x || 0` is `Option.getD x 0`.
* Functions that `logic.js` calls but does not define (`generateCombinations`,
  `recordLoadTime`, `calculateResponseTime`, `createComparisonMatrix`,
  `calculateEigenvector`) and the browser's URL resolution are fields of
  `Env`, so every result holds for every implementation of them.
* An uncaught `TypeError` in a page function is `none`.
-/

namespace ResponseTime

/-! ## Strings -/

/-- Code points removed by `String.prototype.trim`: the ECMAScript WhiteSpace
and LineTerminator productions. -/
def isJsWhitespace (c : Char) : Bool :=
  c.toNat = 0x09 || c.toNat = 0x0A || c.toNat = 0x0B || c.toNat = 0x0C || c.toNat = 0x0D
    || c.toNat = 0x20 || c.toNat = 0xA0 || c.toNat = 0x1680
    || (0x2000 ≤ c.toNat && c.toNat ≤ 0x200A)
    || c.toNat = 0x2028 || c.toNat = 0x2029 || c.toNat = 0x202F || c.toNat = 0x205F
    || c.toNat = 0x3000 || c.toNat = 0xFEFF

/-- Characters of `s.trim()`: whitespace removed at both ends. -/
def trimChars (cs : List Char) : List Char :=
  ((cs.dropWhile isJsWhitespace).reverse.dropWhile isJsWhitespace).reverse

/-- The method `keyword.trim()`. -/
def jsTrim (s : String) : String := ⟨trimChars s.data⟩

/-- Pieces of a character list cut at every occurrence of `sep`; the empty
input gives one empty piece, as `"".split(",")` is `[""]`. -/
def splitChars (sep : Char) : List Char → List (List Char)
  | [] => [[]]
  | c :: cs =>
    if c = sep then [] :: splitChars sep cs
    else
      match splitChars sep cs with
      | [] => [[c]]
      | piece :: pieces => (c :: piece) :: pieces

/-- The method `text.split(sep)` for a one-character separator. -/
def jsSplit (s : String) (sep : Char) : List String :=
  (splitChars sep s.data).map String.mk

/-- A string has no leading and no trailing whitespace. -/
def isTrimmed (s : String) : Bool :=
  (match s.data.head? with
    | some c => !isJsWhitespace c
    | none => true)
  && (match s.data.getLast? with
    | some c => !isJsWhitespace c
    | none => true)

/-- The function `loadKeywords`. The argument is the text of
`data/keywords.txt`, or `none` when `fetch` or `response.text()` rejects and
the `catch` branch runs. -/
def loadKeywords (fetched : Option String) : List String :=
  match fetched with
  | some text => (jsSplit text ',').map jsTrim
  | none => []

/-! ## Records and the environment -/

/-- An entry pushed by `KeywordManager.recordResponse`. -/
structure KeywordResponse where
  keyword1 : String
  keyword2 : String
  selectedKeyword : String
  responseTime : ℚ
deriving DecidableEq, Repr

/-- An entry pushed by `handleImageClick`; `keyword` is `keywords[currentRound]`,
which is `undefined` when the round index is out of range. -/
structure ImageResponse where
  responseTime : ℚ
  leftImage : String
  rightImage : String
  selectedImage : String
  keyword : Option String
deriving DecidableEq, Repr

/-- First argument of `createComparisonMatrix`: either response log. -/
inductive ResponseLog where
  | keywordLog (entries : List KeywordResponse)
  | imageLog (entries : List ImageResponse)
deriving DecidableEq, Repr

/-- The functions used by `logic.js` that are defined elsewhere.
`recordLoadTime n` is the value returned by the `n`-th call of
`recordLoadTime()` on a page; `resolveUrl` is the browser's resolution of an
assigned `src` attribute to the URL that reading `src` returns. -/
structure Env where
  generateCombinations : List String → List (String × String)
  recordLoadTime : Nat → ℚ
  calculateResponseTime : Option ℚ → ℚ → ℚ
  resolveUrl : String → String
  createComparisonMatrix : ResponseLog → List String → String → List (List ℚ)
  calculateEigenvector : List (List ℚ) → List ℚ

/-- The four `localStorage` items of a session, already JSON-decoded; `none`
is an item that was never set. The only writers of these items, `saveResponse`
and `saveResults`, store arrays. -/
structure LocalStorage where
  keywordResponseTimes : Option (List KeywordResponse)
  responseTimes : Option (List ImageResponse)
  keywords : Option (List String)
  images : Option (List String)
deriving DecidableEq, Repr

/-- Which of the two displayed elements the user clicked. -/
inductive Side where
  | left
  | right
deriving DecidableEq, Repr

/-! ## KeywordManager -/

/-- The fields of class `KeywordManager`. -/
structure KeywordManager where
  keywordPairs : List (String × String)
  currentPairIndex : Nat
  responseTimes : List KeywordResponse
deriving DecidableEq, Repr

/-- The constructor of `KeywordManager`. -/
def KeywordManager.new (generateCombinations : List String → List (String × String))
    (keywords : List String) : KeywordManager :=
  { keywordPairs := generateCombinations keywords, currentPairIndex := 0, responseTimes := [] }

/-- The method `hasNextPair`. -/
def KeywordManager.hasNextPair (m : KeywordManager) : Bool :=
  decide (m.currentPairIndex < m.keywordPairs.length)

/-- The method `getNextPair`: the element at the cursor (`undefined` past the
end) and the manager with the cursor advanced. -/
def KeywordManager.getNextPair (m : KeywordManager) :
    Option (String × String) × KeywordManager :=
  (m.keywordPairs[m.currentPairIndex]?, { m with currentPairIndex := m.currentPairIndex + 1 })

/-- The method `recordResponse`; `now` is the value of its `recordLoadTime()`
call. -/
def KeywordManager.recordResponse (calculateResponseTime : Option ℚ → ℚ → ℚ)
    (m : KeywordManager) (keyword1 keyword2 selectedKeyword : String)
    (startTime : Option ℚ) (now : ℚ) : KeywordManager :=
  { m with
    responseTimes := m.responseTimes ++
      [{ keyword1 := keyword1, keyword2 := keyword2, selectedKeyword := selectedKeyword,
         responseTime := calculateResponseTime startTime now }] }

/-- The method `saveResponse`. -/
def KeywordManager.saveResponse (m : KeywordManager) (storage : LocalStorage) : LocalStorage :=
  { storage with keywordResponseTimes := some m.responseTimes }

/-- One call of a method of the manager. -/
inductive ManagerOp where
  | hasNextPair
  | getNextPair
  | recordResponse (keyword1 keyword2 selectedKeyword : String) (startTime : Option ℚ) (now : ℚ)
  | saveResponse
deriving DecidableEq, Repr

/-- State of the manager after one method call. -/
def KeywordManager.step (calculateResponseTime : Option ℚ → ℚ → ℚ) (m : KeywordManager) :
    ManagerOp → KeywordManager
  | .hasNextPair => m
  | .getNextPair => m.getNextPair.2
  | .recordResponse k1 k2 sel start now =>
    m.recordResponse calculateResponseTime k1 k2 sel start now
  | .saveResponse => m

/-- State of the manager after a sequence of method calls. -/
def KeywordManager.run (calculateResponseTime : Option ℚ → ℚ → ℚ) (m : KeywordManager)
    (ops : List ManagerOp) : KeywordManager :=
  ops.foldl (KeywordManager.step calculateResponseTime) m

/-- State of the manager after `n` calls of `getNextPair`. -/
def KeywordManager.afterCalls : Nat → KeywordManager → KeywordManager
  | 0, m => m
  | n + 1, m => KeywordManager.afterCalls n m.getNextPair.2

/-- The loop `while (m.hasNextPair()) out.push(m.getNextPair())`, bounded by
`fuel` iterations: the values returned and the final manager. -/
def KeywordManager.drain : Nat → KeywordManager →
    List (Option (String × String)) × KeywordManager
  | 0, m => ([], m)
  | fuel + 1, m =>
    if m.hasNextPair then
      ((m.getNextPair.1 :: (KeywordManager.drain fuel m.getNextPair.2).1),
        (KeywordManager.drain fuel m.getNextPair.2).2)
    else ([], m)

/-! ## keyword_question.html -/

/-- State of the keyword page: the manager, the text of the two elements,
`window.keywordStartTime`, the number of `recordLoadTime()` calls made so far,
`localStorage`, and the target of the navigation once it has been requested. -/
structure KeywordPage where
  manager : KeywordManager
  keyword1Text : String
  keyword2Text : String
  keywordStartTime : Option ℚ
  clockReads : Nat
  storage : LocalStorage
  location : Option String
deriving DecidableEq, Repr

/-- The closure `displayNextPair`. The inner `none` branch is the array
destructuring of `undefined`; `hasNextPair` excludes it. -/
def displayNextPair (env : Env) (p : KeywordPage) : KeywordPage :=
  if p.manager.hasNextPair then
    match p.manager.getNextPair.1 with
    | some (keyword1, keyword2) =>
      { p with
        manager := p.manager.getNextPair.2
        keyword1Text := keyword1
        keyword2Text := keyword2
        keywordStartTime := some (env.recordLoadTime p.clockReads)
        clockReads := p.clockReads + 1 }
    | none => { p with manager := p.manager.getNextPair.2 }
  else
    { p with
      storage := p.manager.saveResponse p.storage
      location := some "item_question.html" }

/-- The closure `handleKeywordClick`. -/
def handleKeywordClick (env : Env) (selectedKeyword : String) (p : KeywordPage) : KeywordPage :=
  displayNextPair env
    { p with
      manager := p.manager.recordResponse env.calculateResponseTime p.keyword1Text
        p.keyword2Text selectedKeyword p.keywordStartTime (env.recordLoadTime p.clockReads)
      clockReads := p.clockReads + 1 }

/-- The two click listeners: each passes the text of its own element. -/
def clickKeyword (env : Env) (p : KeywordPage) (side : Side) : KeywordPage :=
  match side with
  | .left => handleKeywordClick env p.keyword1Text p
  | .right => handleKeywordClick env p.keyword2Text p

/-- The function `initializeKeywordQuestionPage`, from the awaited result of
`loadKeywords()`, the initial text of the two elements and the stored items. -/
def initializeKeywordQuestionPage (env : Env) (keywords : List String)
    (keyword1Text keyword2Text : String) (storage : LocalStorage) : KeywordPage :=
  displayNextPair env
    { manager := KeywordManager.new env.generateCombinations keywords
      keyword1Text := keyword1Text
      keyword2Text := keyword2Text
      keywordStartTime := none
      clockReads := 0
      storage := storage
      location := none }

/-- The keyword page after a sequence of clicks. -/
def runKeywordClicks (env : Env) (p : KeywordPage) (clicks : List Side) : KeywordPage :=
  clicks.foldl (clickKeyword env) p

/-! ## item_question.html -/

/-- State of the image page: the closure variables of
`initializeItemQuestionPage`, the assigned `src` of the two images, the text
of the keyword element, the number of `recordLoadTime()` calls, `localStorage`
and the requested navigation. -/
structure ItemPage where
  imageResponseTimes : List ImageResponse
  images : List String
  imagePairs : List (String × String)
  keywords : List String
  currentPairIndex : Nat
  currentRound : Nat
  imageLoadTime : ℚ
  leftSrc : String
  rightSrc : String
  keywordText : String
  clockReads : Nat
  storage : LocalStorage
  location : Option String
deriving DecidableEq, Repr

/-- The constant array `images`. -/
def images : List String := ["image1.jpg", "image2.jpg", "image3.jpg", "image4.jpg"]

/-- The closure `displayNextImagePair`; destructuring `undefined` throws.
Assigning `undefined` to `innerText` shows the text `undefined`. -/
def displayNextImagePair (env : Env) (p : ItemPage) : Option ItemPage :=
  match p.imagePairs[p.currentPairIndex]? with
  | none => none
  | some (leftSrc, rightSrc) =>
    some { p with
      leftSrc := "images/" ++ leftSrc
      rightSrc := "images/" ++ rightSrc
      keywordText := (p.keywords[p.currentRound]?).getD "undefined"
      imageLoadTime := env.recordLoadTime p.clockReads
      clockReads := p.clockReads + 1 }

/-- The closure `saveResults`. -/
def saveResults (p : ItemPage) : ItemPage :=
  { p with
    storage :=
      { p.storage with
        responseTimes := some p.imageResponseTimes
        keywords := some p.keywords
        images := some p.images }
    location := some "complete.html" }

/-- The statement `imageResponseTimes.push(...)` of `handleImageClick`, after
the call of `recordLoadTime()` that opens the handler. -/
def pushImageResponse (env : Env) (selectedImage leftSrc rightSrc : String) (p : ItemPage) :
    ItemPage :=
  { p with
    imageResponseTimes := p.imageResponseTimes ++
      [{ responseTime :=
           env.calculateResponseTime (some p.imageLoadTime) (env.recordLoadTime p.clockReads)
         leftImage := leftSrc
         rightImage := rightSrc
         selectedImage := selectedImage
         keyword := p.keywords[p.currentRound]? }]
    clockReads := p.clockReads + 1 }

/-- The closure `handleImageClick`. The comparisons against `length - 1` are
made on integers, as `0 - 1` is `-1` in JavaScript. -/
def handleImageClick (env : Env) (selectedImage : String) (p : ItemPage) : Option ItemPage :=
  match p.imagePairs[p.currentPairIndex]? with
  | none => none
  | some (leftSrc, rightSrc) =>
    if (p.currentPairIndex : Int) < (p.imagePairs.length : Int) - 1 then
      displayNextImagePair env
        { pushImageResponse env selectedImage leftSrc rightSrc p with
          currentPairIndex := p.currentPairIndex + 1 }
    else if (p.currentRound : Int) < (p.keywords.length : Int) - 1 then
      displayNextImagePair env
        { pushImageResponse env selectedImage leftSrc rightSrc p with
          currentRound := p.currentRound + 1
          currentPairIndex := 0 }
    else
      some (saveResults (pushImageResponse env selectedImage leftSrc rightSrc p))

/-- The expression `src.split("/").pop()` applied to the resolved URL. -/
def lastSegment (url : String) : String :=
  ((jsSplit url '/').getLast?).getD ""

/-- The two click listeners of the image page. -/
def clickImage (env : Env) (p : ItemPage) (side : Side) : Option ItemPage :=
  match side with
  | .left => handleImageClick env (lastSegment (env.resolveUrl p.leftSrc)) p
  | .right => handleImageClick env (lastSegment (env.resolveUrl p.rightSrc)) p

/-- The function `initializeItemQuestionPage`, from the awaited result of
`loadKeywords()`, the initial attributes of the elements and the stored items. -/
def initializeItemQuestionPage (env : Env) (keywords : List String)
    (leftSrc rightSrc keywordText : String) (storage : LocalStorage) : Option ItemPage :=
  displayNextImagePair env
    { imageResponseTimes := []
      images := images
      imagePairs := env.generateCombinations images
      keywords := keywords
      currentPairIndex := 0
      currentRound := 0
      imageLoadTime := 0
      leftSrc := leftSrc
      rightSrc := rightSrc
      keywordText := keywordText
      clockReads := 0
      storage := storage
      location := none }

/-- The image page after a sequence of clicks, `none` once a handler threw. -/
def runImageClicks (env : Env) (p : Option ItemPage) (clicks : List Side) : Option ItemPage :=
  clicks.foldl (fun state side => state.bind (fun q => clickImage env q side)) p

/-! ## complete.html -/

/-- Assignment `obj[key] = value` on an object kept as a list of its own
properties in insertion order. -/
def jsSet {α : Type} (obj : List (String × α)) (key : String) (value : α) : List (String × α) :=
  match obj with
  | [] => [(key, value)]
  | (k, v) :: rest => if k = key then (k, value) :: rest else (k, v) :: jsSet rest key value

/-- Property read `obj[key]` among the own properties of the object; what the
prototype of a JavaScript object would add is left out. -/
def jsGet {α : Type} (obj : List (String × α)) (key : String) : Option α :=
  obj.lookup key

/-- The expression `imageEigenvectors[keyword]?.[imageIndex] || 0`. -/
def scoreValue (imageEigenvectors : String → Option (List ℚ)) (keyword : String)
    (imageIndex : Nat) : ℚ :=
  ((imageEigenvectors keyword).bind (fun eigenvector => eigenvector[imageIndex]?)).getD 0

/-- The expression `keywordEigenvector[kIndex] || 0`. -/
def scoreWeight (keywordEigenvector : List ℚ) (kIndex : Nat) : ℚ :=
  (keywordEigenvector[kIndex]?).getD 0

/-- The array `imageScores`: `images.map` over `keywords.reduce`. -/
def imageScores (keywords images : List String) (keywordEigenvector : List ℚ)
    (imageEigenvectors : String → Option (List ℚ)) : List ℚ :=
  images.enum.map fun (imageIndex, _) =>
    keywords.enum.foldl
      (fun total (kIndex, keyword) =>
        total + scoreValue imageEigenvectors keyword imageIndex
          * scoreWeight keywordEigenvector kIndex)
      0

/-- The two objects `imageMatrices` and `imageEigenvectors` that the
`keywords.forEach` loop fills. -/
structure PerKeyword where
  imageMatrices : List (String × List (List ℚ))
  imageEigenvectors : List (String × List ℚ)
deriving DecidableEq, Repr

/-- The body of the `keywords.forEach` callback. -/
def perKeywordStep (env : Env) (imageResponseTimes : List ImageResponse) (images : List String)
    (acc : PerKeyword) (keyword : String) : PerKeyword :=
  let keywordData := imageResponseTimes.filter (fun entry => decide (entry.keyword = some keyword))
  let matrix := env.createComparisonMatrix (.imageLog keywordData) images "imageResponseTimes"
  let eigenvector := env.calculateEigenvector matrix
  { imageMatrices := jsSet acc.imageMatrices keyword matrix
    imageEigenvectors := jsSet acc.imageEigenvectors keyword eigenvector }

/-- Everything `initializeCompletePage` computes past its guard. -/
structure CompleteData where
  keywordMatrix : List (List ℚ)
  keywordEigenvector : List ℚ
  perKeyword : PerKeyword
  imageScores : List ℚ
deriving DecidableEq, Repr

/-- Result of `initializeCompletePage`: the warning of the guard, or the
computed data. -/
inductive CompleteOutcome where
  | missingData (warning : String)
  | completed (data : CompleteData)
deriving DecidableEq, Repr

/-- The function `initializeCompletePage` up to the registration of the
download listener. An item that was never stored reads as `"[]"`. -/
def initializeCompletePage (env : Env) (storage : LocalStorage) : CompleteOutcome :=
  let keywordResponseTimes := storage.keywordResponseTimes.getD []
  let imageResponseTimes := storage.responseTimes.getD []
  let keywords := storage.keywords.getD []
  let images := storage.images.getD []
  if keywords.length = 0 ∨ keywordResponseTimes.length = 0 ∨ imageResponseTimes.length = 0
      ∨ images.length = 0 then
    .missingData "One or more data sets are missing!"
  else
    let keywordMatrix :=
      env.createComparisonMatrix (.keywordLog keywordResponseTimes) keywords "keywordResponseTimes"
    let keywordEigenvector := env.calculateEigenvector keywordMatrix
    let perKeyword :=
      keywords.foldl (perKeywordStep env imageResponseTimes images)
        { imageMatrices := [], imageEigenvectors := [] }
    .completed
      { keywordMatrix := keywordMatrix
        keywordEigenvector := keywordEigenvector
        perKeyword := perKeyword
        imageScores :=
          imageScores keywords images keywordEigenvector (jsGet perKeyword.imageEigenvectors) }

/-- Modelled from the spec: `generateCombinations` is called by `logic.js` and
its definition lies outside that file. Section 4.1: all index pairs `i < j` of the input in
lexicographic index order, each carrying `(items[i], items[j])`. Used only to
build concrete environments. -/
def generateCombinations : List String → List (String × String)
  | [] => []
  | item :: rest => rest.map (fun other => (item, other)) ++ generateCombinations rest

/-- A concrete environment: the combination generator of the spec, a clock
that always reads `0`, latency `end - start`, URLs resolved against a fixed base,
an all-ones comparison matrix and the uniform priority vector. -/
def sampleEnv : Env where
  generateCombinations := generateCombinations
  recordLoadTime := fun _ => 0
  calculateResponseTime := fun start now => now - start.getD 0
  resolveUrl := fun src => "http://localhost/" ++ src
  createComparisonMatrix := fun _ items _ => items.map (fun _ => items.map (fun _ => 1))
  calculateEigenvector := fun matrix => matrix.map (fun _ => 1 / (matrix.length : ℚ))

/-- Stored items of a session in which nothing has been saved yet. -/
def emptyStorage : LocalStorage :=
  { keywordResponseTimes := none, responseTimes := none, keywords := none, images := none }

/-! ## Definitions used to state the results -/

/-- The score of image index `i` written as the sum of the claim. -/
def scoreSum (keywords : List String) (w : List ℚ) (v : String → Option (List ℚ)) (i : Nat) : ℚ :=
  ∑ k in Finset.range keywords.length,
    (((keywords[k]?).bind v).bind (fun vec => vec[i]?)).getD 0 * (w[k]?).getD 0

/-- The pair a keyword response was recorded for. -/
def pairOf (e : KeywordResponse) : String × String := (e.keyword1, e.keyword2)

/-- Invariant of the keyword page after `j` clicks of a round over `pairs`. -/
def KeywordRound (pairs : List (String × String)) (j : Nat) (p : KeywordPage) : Prop :=
  p.manager.keywordPairs = pairs
  ∧ p.manager.responseTimes.map pairOf = pairs.take j
  ∧ (j < pairs.length →
      p.manager.currentPairIndex = j + 1
      ∧ pairs[j]? = some (p.keyword1Text, p.keyword2Text)
      ∧ p.location = none)
  ∧ (j = pairs.length →
      p.location = some "item_question.html"
      ∧ p.storage.keywordResponseTimes = some p.manager.responseTimes)

/-- The pair and the context label an image response was recorded for. -/
def imageEntryOf (e : ImageResponse) : (String × String) × Option String :=
  ((e.leftImage, e.rightImage), e.keyword)

/-- The round-major schedule of the image page: for each keyword in order,
every pair in order, labelled with that keyword. -/
def labelledPairs (keywords : List String) (pairs : List (String × String)) :
    List ((String × String) × Option String) :=
  (keywords.map (fun keyword => pairs.map (fun pair => (pair, some keyword)))).flatten

/-- Invariant of the image page after `n` clicks, before `saveResults`. -/
def ImageRound (pairs : List (String × String)) (keywords : List String)
    (storage : LocalStorage) (n : Nat) (p : ItemPage) : Prop :=
  p.imagePairs = pairs ∧ p.keywords = keywords ∧ p.images = images
  ∧ p.currentPairIndex < pairs.length ∧ p.currentRound < keywords.length
  ∧ n = p.currentRound * pairs.length + p.currentPairIndex
  ∧ p.imageResponseTimes.map imageEntryOf = (labelledPairs keywords pairs).take n
  ∧ p.storage = storage ∧ p.location = none

/-- State of the image page right after the first `saveResults`. -/
def ImageDone (pairs : List (String × String)) (keywords : List String)
    (storage : LocalStorage) (p : ItemPage) : Prop :=
  p.imageResponseTimes.map imageEntryOf = labelledPairs keywords pairs
  ∧ p.storage =
      { storage with
        responseTimes := some p.imageResponseTimes
        keywords := some keywords
        images := some images }
  ∧ p.location = some "complete.html"

/-- The image priority vectors of the aggregation example of the spec:
`k1` maps to `[0.7, 0.3]` and `k2` to `[0.2, 0.8]`. -/
def exampleImagePriorities (keyword : String) : Option (List ℚ) :=
  if keyword = "k1" then some [7 / 10, 3 / 10]
  else if keyword = "k2" then some [2 / 10, 8 / 10]
  else none

/-- Stored items after a keyword round over `a` and `b` in which `a` was chosen. -/
def sampleStorage : LocalStorage :=
  { keywordResponseTimes :=
      some [{ keyword1 := "a", keyword2 := "b", selectedKeyword := "a", responseTime := 0 }]
    responseTimes := none
    keywords := none
    images := none }

/-- Stored items after the keyword round of `sampleStorage` and an image round
over the keywords `a` and `b` with twelve clicks on the left image. -/
def sampleSavedStorage : LocalStorage :=
  match runImageClicks sampleEnv
      (initializeItemQuestionPage sampleEnv ["a", "b"] "" "" "" sampleStorage)
      (List.replicate 12 Side.left) with
  | some page => page.storage
  | none => emptyStorage

/-! ## Aggregation: lemmas -/

theorem foldl_enumFrom_add {α : Type} (f : Nat → α → ℚ) (l : List α) (n : Nat) (a : ℚ) :
    (l.enumFrom n).foldl (fun total p => total + f p.1 p.2) a
      = a + ∑ k in Finset.range l.length,
          (match l[k]? with
            | some x => f (n + k) x
            | none => 0) := by
  induction l generalizing n a with
  | nil => simp
  | cons x xs ih =>
    simp only [List.enumFrom_cons, List.foldl_cons, List.length_cons]
    rw [ih, Finset.sum_range_succ']
    simp only [List.getElem?_cons_succ, List.getElem?_cons_zero, Nat.add_zero]
    have shift : ∀ k, n + 1 + k = n + (k + 1) := by intro k; omega
    simp only [shift]
    ring

theorem reduce_eq_scoreSum (keywords : List String) (w : List ℚ)
    (v : String → Option (List ℚ)) (i : Nat) :
    keywords.enum.foldl
      (fun total (p : Nat × String) => total + scoreValue v p.2 i * scoreWeight w p.1) 0
      = scoreSum keywords w v i := by
  rw [List.enum, foldl_enumFrom_add (fun k keyword => scoreValue v keyword i * scoreWeight w k)]
  simp only [zero_add, scoreSum]
  apply Finset.sum_congr rfl
  intro k hk
  have hk' : k < keywords.length := Finset.mem_range.mp hk
  simp [List.getElem?_eq_getElem hk', scoreValue, scoreWeight]

theorem imageScores_getElem? (keywords images : List String) (w : List ℚ)
    (v : String → Option (List ℚ)) (i : Nat) :
    (imageScores keywords images w v)[i]?
      = if i < images.length then some (scoreSum keywords w v i) else none := by
  unfold imageScores
  rw [List.getElem?_map, List.enum, List.getElem?_enumFrom]
  by_cases h : i < images.length
  · simp only [List.getElem?_eq_getElem h, Option.map_some', zero_add, if_pos h]
    exact congrArg some (reduce_eq_scoreSum keywords w v i)
  · simp [h, List.getElem?_eq_none (Nat.le_of_not_lt h)]

theorem imageScores_length (keywords images : List String) (w : List ℚ)
    (v : String → Option (List ℚ)) :
    (imageScores keywords images w v).length = images.length := by
  simp [imageScores, List.enum]

theorem imageScores_eq_map_range (keywords images : List String) (w : List ℚ)
    (v : String → Option (List ℚ)) :
    imageScores keywords images w v
      = (List.range images.length).map (scoreSum keywords w v) := by
  apply List.ext_getElem?
  intro i
  rw [imageScores_getElem?, List.getElem?_map]
  by_cases h : i < images.length
  · simp [h, List.getElem?_range h]
  · simp [h, List.getElem?_eq_none (l := List.range images.length) (by simpa using Nat.le_of_not_lt h)]

theorem sum_map_range (f : Nat → ℚ) (n : Nat) :
    ((List.range n).map f).sum = ∑ i in Finset.range n, f i := by
  induction n with
  | zero => simp
  | succ n ih => simp [List.range_succ, Finset.sum_range_succ, ih]

theorem sum_getD_range (l : List ℚ) :
    ∑ i in Finset.range l.length, (l[i]?).getD 0 = l.sum := by
  induction l with
  | nil => simp
  | cons x xs ih =>
    rw [List.length_cons, Finset.sum_range_succ']
    simp only [List.getElem?_cons_succ, List.getElem?_cons_zero, Option.getD_some, List.sum_cons]
    rw [ih]; ring

theorem getD_nonneg (l : List ℚ) (h : ∀ x ∈ l, 0 ≤ x) (i : Nat) : 0 ≤ (l[i]?).getD 0 := by
  cases hx : l[i]? with
  | none => simp
  | some x => simpa using h x (List.getElem?_mem hx)

/-- C1: the score list of `initializeCompletePage` has one entry per image, in
image order; the entry of image index `i` is the sum over keyword positions `k`
of `v[keywords[k]][i] * w[k]`, where a missing vector, a missing vector entry
and a missing weight count as `0` (the function is total, so nothing is
raised). With `w = [0.6, 0.4]`, `k1 ↦ [0.7, 0.3]` and `k2 ↦ [0.2, 0.8]` the
scores are `[0.5, 0.5]` exactly. -/
theorem imageScores_weighted_sum (keywords images : List String) (w : List ℚ)
    (v : String → Option (List ℚ)) :
    (imageScores keywords images w v).length = images.length
    ∧ (∀ i, (imageScores keywords images w v)[i]?
        = if i < images.length then
            some (∑ k in Finset.range keywords.length,
              (((keywords[k]?).bind v).bind (fun vec => vec[i]?)).getD 0 * (w[k]?).getD 0)
          else none)
    ∧ (∀ image1 image2 : String,
        imageScores ["k1", "k2"] [image1, image2] [6 / 10, 4 / 10]
          (fun keyword =>
            if keyword = "k1" then some [7 / 10, 3 / 10]
            else if keyword = "k2" then some [2 / 10, 8 / 10]
            else none)
          = [1 / 2, 1 / 2]) := by
  refine ⟨imageScores_length keywords images w v, ?_, ?_⟩
  · intro i
    exact imageScores_getElem? keywords images w v i
  · intro image1 image2
    rw [imageScores_eq_map_range]
    simp [scoreSum, Finset.sum_range_succ, List.range_succ]
    norm_num

/-- C10: if the keyword priority vector has one non-negative entry per keyword
summing to `1`, and every keyword has an image priority vector with one
non-negative entry per image summing to `1`, then every score is non-negative
and the scores sum to exactly `1`. -/
theorem imageScores_nonneg_sum_one (keywords images : List String) (w : List ℚ)
    (v : String → Option (List ℚ))
    (hwlen : w.length = keywords.length) (hwnn : ∀ x ∈ w, 0 ≤ x) (hwsum : w.sum = 1)
    (hv : ∀ keyword ∈ keywords, ∃ vec, v keyword = some vec ∧ vec.length = images.length
      ∧ (∀ x ∈ vec, 0 ≤ x) ∧ vec.sum = 1) :
    (∀ s ∈ imageScores keywords images w v, 0 ≤ s)
    ∧ (imageScores keywords images w v).sum = 1 := by
  rw [imageScores_eq_map_range]
  constructor
  · intro s hs
    obtain ⟨i, -, rfl⟩ := List.mem_map.mp hs
    apply Finset.sum_nonneg
    intro k hk
    have hk' : k < keywords.length := Finset.mem_range.mp hk
    apply mul_nonneg _ (getD_nonneg w hwnn k)
    obtain ⟨vec, hvec, -, hnn, -⟩ := hv keywords[k] (List.getElem_mem hk')
    simp only [List.getElem?_eq_getElem hk', Option.some_bind, hvec]
    exact getD_nonneg vec hnn i
  · rw [sum_map_range]
    unfold scoreSum
    rw [Finset.sum_comm]
    have inner : ∀ k ∈ Finset.range keywords.length,
        ∑ i in Finset.range images.length,
          (((keywords[k]?).bind v).bind (fun vec => vec[i]?)).getD 0 * (w[k]?).getD 0
        = (w[k]?).getD 0 := by
      intro k hk
      have hk' : k < keywords.length := Finset.mem_range.mp hk
      obtain ⟨vec, hvec, hlen, -, hsum⟩ := hv keywords[k] (List.getElem_mem hk')
      simp only [List.getElem?_eq_getElem hk', Option.some_bind, hvec]
      rw [← Finset.sum_mul, ← hlen, sum_getD_range, hsum, one_mul]
    rw [Finset.sum_congr rfl inner, ← hwlen, sum_getD_range, hwsum]

/-! ## KeywordManager: the cursor -/

theorem afterCalls_eq (n : Nat) (m : KeywordManager) :
    KeywordManager.afterCalls n m = { m with currentPairIndex := m.currentPairIndex + n } := by
  induction n generalizing m with
  | zero => rfl
  | succ n ih =>
    rw [KeywordManager.afterCalls, ih]
    simp only [KeywordManager.getNextPair]
    congr 1
    omega

theorem drain_eq (extra : Nat) (gap : Nat) (m : KeywordManager)
    (h : m.currentPairIndex + gap = m.keywordPairs.length) :
    KeywordManager.drain (gap + extra) m
      = ((m.keywordPairs.drop m.currentPairIndex).map some,
          { m with currentPairIndex := m.keywordPairs.length }) := by
  induction gap generalizing m with
  | zero =>
    have hidx : m.currentPairIndex = m.keywordPairs.length := by omega
    have hno : m.hasNextPair = false := by simp [KeywordManager.hasNextPair, hidx]
    have hdrop : List.drop m.currentPairIndex m.keywordPairs = [] := by
      rw [hidx]; exact List.drop_length _
    cases extra with
    | zero =>
      simp only [KeywordManager.drain, hdrop, List.map_nil, Nat.add_zero]
      rw [← hidx]
    | succ e =>
      simp only [Nat.zero_add, KeywordManager.drain, hno, hdrop, List.map_nil]
      rw [← hidx]
      rfl
  | succ g ih =>
    have hlt : m.currentPairIndex < m.keywordPairs.length := by omega
    have hyes : m.hasNextPair = true := by simp [KeywordManager.hasNextPair, hlt]
    have hstep : g + 1 + extra = (g + extra) + 1 := by omega
    rw [hstep, KeywordManager.drain]
    simp only [hyes, if_true]
    have hnext := ih m.getNextPair.2 (by simp only [KeywordManager.getNextPair]; omega)
    rw [hnext]
    simp only [KeywordManager.getNextPair]
    rw [List.getElem?_eq_getElem hlt]
    conv_rhs => rw [List.drop_eq_getElem_cons hlt]
    rfl

theorem step_keeps_pairs (rt : Option ℚ → ℚ → ℚ) (m : KeywordManager) (op : ManagerOp) :
    (m.step rt op).keywordPairs = m.keywordPairs
    ∧ m.currentPairIndex ≤ (m.step rt op).currentPairIndex := by
  cases op <;> simp [KeywordManager.step, KeywordManager.getNextPair,
    KeywordManager.recordResponse]

theorem run_stays_exhausted (rt : Option ℚ → ℚ → ℚ) (ops : List ManagerOp)
    (m : KeywordManager) (h : m.hasNextPair = false) :
    (m.run rt ops).hasNextPair = false := by
  induction ops generalizing m with
  | nil => exact h
  | cons op ops ih =>
    apply ih
    have hs := step_keeps_pairs rt m op
    simp only [KeywordManager.hasNextPair, decide_eq_false_iff_not, not_lt] at h ⊢
    rw [hs.1]
    exact le_trans h hs.2

theorem run_cursor (rt : Option ℚ → ℚ → ℚ) (ops : List ManagerOp) (m : KeywordManager) :
    (m.run rt ops).keywordPairs = m.keywordPairs
    ∧ (m.run rt ops).currentPairIndex
        = m.currentPairIndex + ops.count ManagerOp.getNextPair := by
  induction ops generalizing m with
  | nil => simp [KeywordManager.run]
  | cons op ops ih =>
    have hrun : m.run rt (op :: ops) = (m.step rt op).run rt ops := rfl
    rw [hrun, (ih (m.step rt op)).1, (ih (m.step rt op)).2]
    cases op <;> simp [KeywordManager.step, KeywordManager.getNextPair,
      KeywordManager.recordResponse, List.count_cons]
    omega

/-- C3: for the pair list `P` of a freshly constructed `KeywordManager`, the
loop that calls `getNextPair` while `hasNextPair` holds returns exactly `P` in
order and stops with the cursor at `|P|` (for every bound of at least `|P|`
iterations); after `j` calls `hasNextPair` is true exactly when `j < |P|`; call
number `j` returns position `j` of `P`, and `undefined` from `|P|` on, also when
other methods are called in between, so no position is returned twice; and once
`hasNextPair` is false it is false after every sequence of method calls. -/
theorem keywordManager_cursor (generateCombinations : List String → List (String × String))
    (keywords : List String) (rt : Option ℚ → ℚ → ℚ) :
    (∀ extra,
      KeywordManager.drain ((generateCombinations keywords).length + extra)
          (KeywordManager.new generateCombinations keywords)
        = ((generateCombinations keywords).map some,
            { keywordPairs := generateCombinations keywords
              currentPairIndex := (generateCombinations keywords).length
              responseTimes := [] }))
    ∧ (∀ j,
        ((KeywordManager.new generateCombinations keywords).afterCalls j).hasNextPair
          = decide (j < (generateCombinations keywords).length))
    ∧ (∀ j,
        ((KeywordManager.new generateCombinations keywords).afterCalls j).getNextPair.1
          = (generateCombinations keywords)[j]?)
    ∧ (∀ ops,
        ((KeywordManager.new generateCombinations keywords).run rt ops).getNextPair.1
          = (generateCombinations keywords)[ops.count ManagerOp.getNextPair]?)
    ∧ (∀ (m : KeywordManager) (ops : List ManagerOp),
        m.hasNextPair = false → (m.run rt ops).hasNextPair = false) := by
  refine ⟨?_, ?_, ?_, ?_, ?_⟩
  · intro extra
    have h := drain_eq extra (generateCombinations keywords).length
      (KeywordManager.new generateCombinations keywords) (by simp [KeywordManager.new])
    simpa [KeywordManager.new] using h
  · intro j
    simp [afterCalls_eq, KeywordManager.new, KeywordManager.hasNextPair]
  · intro j
    simp [afterCalls_eq, KeywordManager.new, KeywordManager.getNextPair]
  · intro ops
    have h := run_cursor rt ops (KeywordManager.new generateCombinations keywords)
    simp only [KeywordManager.getNextPair, h.1, h.2]
    simp [KeywordManager.new]
  · intro m ops h
    exact run_stays_exhausted rt ops m h

/-! ## keyword_question.html: the elicitation round -/

theorem displayNextPair_round (env : Env) (pairs : List (String × String)) (j : Nat)
    (p : KeywordPage) (hp : p.manager.keywordPairs = pairs)
    (hlog : p.manager.responseTimes.map pairOf = pairs.take j)
    (hidx : p.manager.currentPairIndex = j) (hj : j ≤ pairs.length) (hloc : p.location = none) :
    KeywordRound pairs j (displayNextPair env p) := by
  rcases Nat.lt_or_ge j pairs.length with hlt | hge
  · have hyes : p.manager.hasNextPair = true := by
      simp [KeywordManager.hasNextPair, hp, hidx, hlt]
    have hget : p.manager.getNextPair.1 = some pairs[j] := by
      simp [KeywordManager.getNextPair, hp, hidx, List.getElem?_eq_getElem hlt]
    unfold displayNextPair
    rw [if_pos hyes, hget]
    refine ⟨?_, ?_, ?_, ?_⟩
    · simpa [KeywordManager.getNextPair] using hp
    · simpa [KeywordManager.getNextPair] using hlog
    · intro _
      refine ⟨?_, ?_, ?_⟩
      · simp [KeywordManager.getNextPair, hidx]
      · simp [List.getElem?_eq_getElem hlt]
      · simpa using hloc
    · intro h; omega
  · have hno : p.manager.hasNextPair = false := by
      simp [KeywordManager.hasNextPair, hp, hidx, hge]
    unfold displayNextPair
    simp only [hno, Bool.false_eq_true, if_false]
    refine ⟨hp, hlog, ?_, ?_⟩
    · intro h; omega
    · intro _
      simp [KeywordManager.saveResponse]

theorem clickKeyword_round (env : Env) (pairs : List (String × String)) (j : Nat)
    (p : KeywordPage) (side : Side) (h : KeywordRound pairs j p) (hj : j < pairs.length) :
    KeywordRound pairs (j + 1) (clickKeyword env p side) := by
  obtain ⟨hp, hlog, hlt, -⟩ := h
  obtain ⟨hidx, hshown, hloc⟩ := hlt hj
  have key : ∀ selected, KeywordRound pairs (j + 1) (handleKeywordClick env selected p) := by
    intro selected
    unfold handleKeywordClick
    apply displayNextPair_round
    · simpa [KeywordManager.recordResponse] using hp
    · simp only [KeywordManager.recordResponse, List.map_append, hlog, List.map_cons,
        List.map_nil, pairOf, List.take_succ, hshown, Option.toList]
    · simpa [KeywordManager.recordResponse] using hidx
    · omega
    · simpa using hloc
  cases side
  · exact key _
  · exact key _

theorem initializeKeywordQuestionPage_round (env : Env) (keywords : List String)
    (keyword1Text keyword2Text : String) (storage : LocalStorage) :
    KeywordRound (env.generateCombinations keywords) 0
      (initializeKeywordQuestionPage env keywords keyword1Text keyword2Text storage) := by
  unfold initializeKeywordQuestionPage
  apply displayNextPair_round <;> simp [KeywordManager.new]

theorem runKeywordClicks_round (env : Env) (pairs : List (String × String))
    (clicks : List Side) (j : Nat) (p : KeywordPage) (h : KeywordRound pairs j p)
    (hj : j + clicks.length ≤ pairs.length) :
    KeywordRound pairs (j + clicks.length) (runKeywordClicks env p clicks) := by
  induction clicks generalizing j p with
  | nil => simpa [runKeywordClicks] using h
  | cons side rest ih =>
    simp only [List.length_cons] at hj
    have hstep := clickKeyword_round env pairs j p side h (by omega)
    have hrest := ih (j + 1) (clickKeyword env p side) hstep (by omega)
    have hlen : j + (side :: rest).length = j + 1 + rest.length := by
      simp only [List.length_cons]; omega
    rw [hlen]
    exact hrest

theorem displayNextPair_responseTimes (env : Env) (p : KeywordPage) :
    (displayNextPair env p).manager.responseTimes = p.manager.responseTimes := by
  unfold displayNextPair
  split
  · split <;> rfl
  · rfl

theorem clickKeyword_responseTimes (env : Env) (p : KeywordPage) (side : Side) :
    ∃ e, (clickKeyword env p side).manager.responseTimes = p.manager.responseTimes ++ [e]
      ∧ (e.selectedKeyword = e.keyword1 ∨ e.selectedKeyword = e.keyword2) := by
  cases side
  · exact ⟨⟨p.keyword1Text, p.keyword2Text, p.keyword1Text,
        env.calculateResponseTime p.keywordStartTime (env.recordLoadTime p.clockReads)⟩,
      by simp only [clickKeyword, handleKeywordClick, displayNextPair_responseTimes,
        KeywordManager.recordResponse], Or.inl rfl⟩
  · exact ⟨⟨p.keyword1Text, p.keyword2Text, p.keyword2Text,
        env.calculateResponseTime p.keywordStartTime (env.recordLoadTime p.clockReads)⟩,
      by simp only [clickKeyword, handleKeywordClick, displayNextPair_responseTimes,
        KeywordManager.recordResponse], Or.inr rfl⟩

theorem runKeywordClicks_chosen (env : Env) (clicks : List Side) (p : KeywordPage)
    (h : ∀ e ∈ p.manager.responseTimes,
      e.selectedKeyword = e.keyword1 ∨ e.selectedKeyword = e.keyword2) :
    ∀ e ∈ (runKeywordClicks env p clicks).manager.responseTimes,
      e.selectedKeyword = e.keyword1 ∨ e.selectedKeyword = e.keyword2 := by
  induction clicks generalizing p with
  | nil => simpa [runKeywordClicks] using h
  | cons side rest ih =>
    apply ih (clickKeyword env p side)
    obtain ⟨e0, hpush, hsel⟩ := clickKeyword_responseTimes env p side
    intro e he
    rw [hpush, List.mem_append, List.mem_singleton] at he
    rcases he with he | rfl
    · exact h e he
    · exact hsel

/-- C4: in the keyword round over the pair list `P`, with one click per displayed
pair, `saveResponse` is not reached before the last click, and after it the
saved log has exactly `|P|` responses whose `(keyword1, keyword2)` at position
`i` is `P[i]`; for an empty `P` the saved log is empty. -/
theorem keyword_round_saved_log (env : Env) (keywords : List String)
    (keyword1Text keyword2Text : String) (storage : LocalStorage) (clicks : List Side)
    (hclicks : clicks.length = (env.generateCombinations keywords).length) :
    (∀ n, n < clicks.length →
      (runKeywordClicks env
        (initializeKeywordQuestionPage env keywords keyword1Text keyword2Text storage)
        (clicks.take n)).location = none)
    ∧ (runKeywordClicks env
        (initializeKeywordQuestionPage env keywords keyword1Text keyword2Text storage)
        clicks).location = some "item_question.html"
    ∧ ∃ log : List KeywordResponse,
        (runKeywordClicks env
          (initializeKeywordQuestionPage env keywords keyword1Text keyword2Text storage)
          clicks).storage.keywordResponseTimes = some log
        ∧ log.length = (env.generateCombinations keywords).length
        ∧ (∀ i : Nat, (log[i]?).map (fun (e : KeywordResponse) => (e.keyword1, e.keyword2))
            = (env.generateCombinations keywords)[i]?)
        ∧ (env.generateCombinations keywords = [] → log = []) := by
  have hinit := initializeKeywordQuestionPage_round env keywords keyword1Text keyword2Text storage
  refine ⟨?_, ?_⟩
  · intro n hn
    have hlen : (clicks.take n).length = n := by
      rw [List.length_take]; omega
    have h := runKeywordClicks_round env _ (clicks.take n) 0 _ hinit (by omega)
    rw [hlen, Nat.zero_add] at h
    exact (h.2.2.1 (by omega)).2.2
  · have h := runKeywordClicks_round env _ clicks 0 _ hinit (by omega)
    rw [Nat.zero_add, hclicks] at h
    obtain ⟨-, hlog, -, hdone⟩ := h
    obtain ⟨hloc, hsaved⟩ := hdone rfl
    rw [List.take_length] at hlog
    refine ⟨hloc, _, hsaved, ?_, ?_, ?_⟩
    · rw [← hlog, List.length_map]
    · intro i
      rw [← hlog, List.getElem?_map]
      rfl
    · intro hempty
      rw [hempty] at hlog
      exact List.map_eq_nil_iff.mp hlog

/-- C7: for every sequence of clicks on the keyword page, every entry pushed to
`responseTimes` has `selectedKeyword = keyword1` or `selectedKeyword = keyword2`. -/
theorem keyword_response_chosen_in_pair (env : Env) (keywords : List String)
    (keyword1Text keyword2Text : String) (storage : LocalStorage) (clicks : List Side)
    (e : KeywordResponse)
    (he : e ∈ (runKeywordClicks env
      (initializeKeywordQuestionPage env keywords keyword1Text keyword2Text storage)
      clicks).manager.responseTimes) :
    e.selectedKeyword = e.keyword1 ∨ e.selectedKeyword = e.keyword2 := by
  refine runKeywordClicks_chosen env clicks _ ?_ e he
  intro e0 he0
  rw [initializeKeywordQuestionPage, displayNextPair_responseTimes] at he0
  simp [KeywordManager.new] at he0

/-! ## item_question.html: the elicitation rounds -/

theorem labelledPairs_length (keywords : List String) (pairs : List (String × String)) :
    (labelledPairs keywords pairs).length = keywords.length * pairs.length := by
  induction keywords with
  | nil => simp [labelledPairs]
  | cons k ks ih =>
    simp only [labelledPairs, List.map_cons, List.flatten_cons, List.length_append,
      List.length_map, List.length_cons] at ih ⊢
    rw [ih, Nat.succ_mul]
    omega

theorem labelledPairs_getElem? (keywords : List String) (pairs : List (String × String))
    (r i : Nat) (hr : r < keywords.length) (hi : i < pairs.length) :
    (labelledPairs keywords pairs)[r * pairs.length + i]? = some (pairs[i], some keywords[r]) := by
  induction keywords generalizing r with
  | nil => simp at hr
  | cons k ks ih =>
    have hcons : labelledPairs (k :: ks) pairs
        = pairs.map (fun pair => (pair, some k)) ++ labelledPairs ks pairs := by
      simp [labelledPairs]
    rw [hcons]
    cases r with
    | zero =>
      rw [Nat.zero_mul, Nat.zero_add, List.getElem?_append_left (by simpa using hi)]
      simp [List.getElem?_eq_getElem hi]
    | succ r =>
      have hr' : r < ks.length := by simpa using hr
      rw [List.getElem?_append_right (by rw [List.length_map, Nat.succ_mul]; omega)]
      have hidx : (r + 1) * pairs.length + i - (pairs.map (fun pair => (pair, some k))).length
          = r * pairs.length + i := by
        rw [List.length_map, Nat.succ_mul]; omega
      rw [hidx, ih r hr']
      simp

theorem displayNextImagePair_some (env : Env) (p : ItemPage)
    (h : p.currentPairIndex < p.imagePairs.length) :
    ∃ q, displayNextImagePair env p = some q
      ∧ q.imageResponseTimes = p.imageResponseTimes ∧ q.images = p.images
      ∧ q.imagePairs = p.imagePairs ∧ q.keywords = p.keywords
      ∧ q.currentPairIndex = p.currentPairIndex ∧ q.currentRound = p.currentRound
      ∧ q.storage = p.storage ∧ q.location = p.location := by
  unfold displayNextImagePair
  rw [List.getElem?_eq_getElem h]
  exact ⟨_, rfl, rfl, rfl, rfl, rfl, rfl, rfl, rfl, rfl⟩

theorem initializeItemQuestionPage_round (env : Env) (keywords : List String)
    (leftSrc rightSrc keywordText : String) (storage : LocalStorage)
    (hK : keywords ≠ []) (hP : env.generateCombinations images ≠ []) :
    ∃ q, initializeItemQuestionPage env keywords leftSrc rightSrc keywordText storage = some q
      ∧ ImageRound (env.generateCombinations images) keywords storage 0 q := by
  have hlen : 0 < (env.generateCombinations images).length := List.length_pos.mpr hP
  have hklen : 0 < keywords.length := List.length_pos.mpr hK
  unfold initializeItemQuestionPage
  obtain ⟨q, hq, h1, h2, h3, h4, h5, h6, h7, h8⟩ := displayNextImagePair_some env
    { imageResponseTimes := []
      images := images
      imagePairs := env.generateCombinations images
      keywords := keywords
      currentPairIndex := 0
      currentRound := 0
      imageLoadTime := 0
      leftSrc := leftSrc
      rightSrc := rightSrc
      keywordText := keywordText
      clockReads := 0
      storage := storage
      location := none } hlen
  refine ⟨q, hq, ?_⟩
  simp only at h1 h2 h3 h4 h5 h6 h7 h8
  refine ⟨h3, h4, h2, ?_, ?_, ?_, ?_, h7, h8⟩
  · rw [h5]; exact hlen
  · rw [h6]; exact hklen
  · rw [h5, h6]; simp
  · rw [h1]; simp

theorem handleImageClick_round (env : Env) (pairs : List (String × String))
    (keywords : List String) (storage : LocalStorage) (n : Nat) (p : ItemPage)
    (selectedImage : String) (h : ImageRound pairs keywords storage n p) :
    ∃ q, handleImageClick env selectedImage p = some q
      ∧ ((n + 1 < keywords.length * pairs.length ∧ ImageRound pairs keywords storage (n + 1) q)
        ∨ (n + 1 = keywords.length * pairs.length ∧ ImageDone pairs keywords storage q)) := by
  obtain ⟨hp, hk, himg, hi, hr, hn, hlog, hst, hloc⟩ := h
  have hi' : p.currentPairIndex < p.imagePairs.length := by rw [hp]; exact hi
  obtain ⟨a, b, hab⟩ : ∃ a b, p.imagePairs[p.currentPairIndex] = (a, b) := ⟨_, _, rfl⟩
  have hentry : (labelledPairs keywords pairs)[n]? = some ((a, b), some keywords[p.currentRound]) := by
    rw [hn, labelledPairs_getElem? keywords pairs _ _ hr hi]
    subst hp
    rw [hab]
  have hbound : (p.currentRound + 1) * pairs.length ≤ keywords.length * pairs.length :=
    Nat.mul_le_mul_right _ hr
  rw [Nat.succ_mul] at hbound
  have hpush : (pushImageResponse env selectedImage a b p).imageResponseTimes.map imageEntryOf
      = (labelledPairs keywords pairs).take (n + 1) := by
    simp only [pushImageResponse]
    rw [List.map_append, hlog, List.take_succ, hentry]
    simp only [List.map_cons, List.map_nil, imageEntryOf, Option.toList]
    subst hk
    rw [List.getElem?_eq_getElem hr]
  unfold handleImageClick
  rw [List.getElem?_eq_getElem hi', hab]
  simp only
  by_cases hc1 : (p.currentPairIndex : Int) < (p.imagePairs.length : Int) - 1
  · rw [if_pos hc1]
    have hc1' : p.currentPairIndex + 1 < pairs.length := by rw [hp] at hc1; omega
    obtain ⟨q, hq, h1, h2, h3, h4, h5, h6, h7, h8⟩ := displayNextImagePair_some env
      { pushImageResponse env selectedImage a b p with
        currentPairIndex := p.currentPairIndex + 1 }
      (by simp only [pushImageResponse]; rw [hp]; exact hc1')
    refine ⟨q, hq, Or.inl ⟨by omega, ?_⟩⟩
    simp only at h1 h2 h3 h4 h5 h6 h7 h8
    refine ⟨h3.trans hp, h4.trans hk, h2.trans himg, ?_, ?_, ?_, ?_, h7.trans hst,
      h8.trans hloc⟩
    · rw [h5]; exact hc1'
    · rw [h6]; exact hr
    · rw [h5, h6]; simp only [pushImageResponse]; omega
    · rw [h1]; exact hpush
  · rw [if_neg hc1]
    have hlast : p.currentPairIndex + 1 = pairs.length := by rw [hp] at hc1; omega
    by_cases hc2 : (p.currentRound : Int) < (p.keywords.length : Int) - 1
    · rw [if_pos hc2]
      have hc2' : p.currentRound + 1 < keywords.length := by rw [hk] at hc2; omega
      have hbound2 : (p.currentRound + 1 + 1) * pairs.length ≤ keywords.length * pairs.length :=
        Nat.mul_le_mul_right _ hc2'
      rw [Nat.succ_mul, Nat.succ_mul] at hbound2
      obtain ⟨q, hq, h1, h2, h3, h4, h5, h6, h7, h8⟩ := displayNextImagePair_some env
        { pushImageResponse env selectedImage a b p with
          currentRound := p.currentRound + 1
          currentPairIndex := 0 }
        (by simp only [pushImageResponse]; rw [hp]; omega)
      refine ⟨q, hq, Or.inl ⟨by omega, ?_⟩⟩
      simp only at h1 h2 h3 h4 h5 h6 h7 h8
      refine ⟨h3.trans hp, h4.trans hk, h2.trans himg, ?_, ?_, ?_, ?_, h7.trans hst,
        h8.trans hloc⟩
      · rw [h5]; omega
      · rw [h6]; exact hc2'
      · rw [h5, h6, Nat.succ_mul]; omega
      · rw [h1]; exact hpush
    · rw [if_neg hc2]
      have hlastr : p.currentRound + 1 = keywords.length := by rw [hk] at hc2; omega
      have htotal : n + 1 = keywords.length * pairs.length := by
        rw [← hlastr, Nat.succ_mul]; omega
      refine ⟨_, rfl, Or.inr ⟨htotal, ?_, ?_, ?_⟩⟩
      · simp only [saveResults]
        rw [hpush, htotal, ← labelledPairs_length, List.take_length]
      · simp only [saveResults, pushImageResponse, hst, hk, himg]
      · simp only [saveResults]

theorem clickImage_round (env : Env) (pairs : List (String × String))
    (keywords : List String) (storage : LocalStorage) (n : Nat) (p : ItemPage)
    (side : Side) (h : ImageRound pairs keywords storage n p) :
    ∃ q, clickImage env p side = some q
      ∧ ((n + 1 < keywords.length * pairs.length ∧ ImageRound pairs keywords storage (n + 1) q)
        ∨ (n + 1 = keywords.length * pairs.length ∧ ImageDone pairs keywords storage q)) := by
  cases side
  · exact handleImageClick_round env pairs keywords storage n p _ h
  · exact handleImageClick_round env pairs keywords storage n p _ h

theorem runImageClicks_cons (env : Env) (p : ItemPage) (side : Side) (rest : List Side) :
    runImageClicks env (some p) (side :: rest)
      = runImageClicks env (clickImage env p side) rest := rfl

theorem runImageClicks_before (env : Env) (pairs : List (String × String))
    (keywords : List String) (storage : LocalStorage) (clicks : List Side) (n : Nat)
    (p : ItemPage) (h : ImageRound pairs keywords storage n p)
    (hn : n + clicks.length < keywords.length * pairs.length) :
    ∃ q, runImageClicks env (some p) clicks = some q
      ∧ ImageRound pairs keywords storage (n + clicks.length) q := by
  induction clicks generalizing n p with
  | nil => exact ⟨p, rfl, h⟩
  | cons side rest ih =>
    simp only [List.length_cons] at hn
    obtain ⟨q, hq, hcase⟩ := clickImage_round env pairs keywords storage n p side h
    rcases hcase with ⟨-, hround⟩ | ⟨heq, -⟩
    · obtain ⟨q2, hq2, hround2⟩ := ih (n + 1) q hround (by omega)
      refine ⟨q2, ?_, ?_⟩
      · rw [runImageClicks_cons, hq, hq2]
      · have hlen : n + (side :: rest).length = n + 1 + rest.length := by
          simp only [List.length_cons]; omega
        rw [hlen]; exact hround2
    · omega

theorem runImageClicks_done (env : Env) (pairs : List (String × String))
    (keywords : List String) (storage : LocalStorage) (clicks : List Side) (n : Nat)
    (p : ItemPage) (h : ImageRound pairs keywords storage n p)
    (hn : n + clicks.length = keywords.length * pairs.length) :
    ∃ q, runImageClicks env (some p) clicks = some q ∧ ImageDone pairs keywords storage q := by
  induction clicks generalizing n p with
  | nil =>
    obtain ⟨-, -, -, hi, hr, hidx, -⟩ := h
    have hbound : (p.currentRound + 1) * pairs.length ≤ keywords.length * pairs.length :=
      Nat.mul_le_mul_right _ hr
    rw [Nat.succ_mul] at hbound
    simp only [List.length_nil] at hn
    omega
  | cons side rest ih =>
    simp only [List.length_cons] at hn
    obtain ⟨q, hq, hcase⟩ := clickImage_round env pairs keywords storage n p side h
    rcases hcase with ⟨-, hround⟩ | ⟨heq, hdone⟩
    · obtain ⟨q2, hq2, hdone2⟩ := ih (n + 1) q hround (by omega)
      exact ⟨q2, by rw [runImageClicks_cons, hq, hq2], hdone2⟩
    · have hrest : rest = [] := List.length_eq_zero.mp (by omega)
      subst hrest
      exact ⟨q, by rw [runImageClicks_cons, hq]; rfl, hdone⟩

/-- C8: for a keyword list of length `K ≥ 1` and a non-empty image pair list `P`,
the image page has not saved before click number `K * |P|`, and after exactly
`K * |P|` clicks `saveResults` has run and the saved log is round-major: it has
`K * |P|` responses and the one at position `r * |P| + i` carries the pair `P[i]`
and the label `keywords[r]`. -/
theorem image_round_saved_log (env : Env) (keywords : List String)
    (leftSrc rightSrc keywordText : String) (storage : LocalStorage) (clicks : List Side)
    (hK : 1 ≤ keywords.length) (hP : env.generateCombinations images ≠ [])
    (hclicks : clicks.length = keywords.length * (env.generateCombinations images).length) :
    (∀ n, n < clicks.length →
      ∃ q, runImageClicks env
          (initializeItemQuestionPage env keywords leftSrc rightSrc keywordText storage)
          (clicks.take n) = some q
        ∧ q.location = none)
    ∧ ∃ q, runImageClicks env
          (initializeItemQuestionPage env keywords leftSrc rightSrc keywordText storage)
          clicks = some q
        ∧ q.location = some "complete.html"
        ∧ ∃ log : List ImageResponse, q.storage.responseTimes = some log
          ∧ log.length = keywords.length * (env.generateCombinations images).length
          ∧ ∀ (r i : Nat) (hr : r < keywords.length)
              (hi : i < (env.generateCombinations images).length),
              (log[r * (env.generateCombinations images).length + i]?).map
                  (fun (e : ImageResponse) => ((e.leftImage, e.rightImage), e.keyword))
                = some ((env.generateCombinations images)[i], some keywords[r]) := by
  have hK' : keywords ≠ [] := List.length_pos.mp hK
  obtain ⟨p0, hp0, hround0⟩ := initializeItemQuestionPage_round env keywords leftSrc rightSrc
    keywordText storage hK' hP
  rw [hp0]
  refine ⟨?_, ?_⟩
  · intro n hn
    have hlen : (clicks.take n).length = n := by
      rw [List.length_take]; omega
    obtain ⟨q, hq, hround⟩ := runImageClicks_before env _ keywords storage (clicks.take n) 0 p0
      hround0 (by omega)
    exact ⟨q, hq, hround.2.2.2.2.2.2.2.2⟩
  · obtain ⟨q, hq, hlog, hst, hloc⟩ := runImageClicks_done env _ keywords storage clicks 0 p0
      hround0 (by omega)
    refine ⟨q, hq, hloc, q.imageResponseTimes, by rw [hst], ?_, ?_⟩
    · rw [← labelledPairs_length, ← hlog, List.length_map]
    · intro r i hr hi
      rw [← labelledPairs_getElem? keywords _ r i hr hi, ← hlog, List.getElem?_map]
      rfl

/-! ## complete.html: what is handed to the matrix builder -/

theorem labelledPairs_cons (k : String) (ks : List String) (pairs : List (String × String)) :
    labelledPairs (k :: ks) pairs
      = pairs.map (fun pair => (pair, some k)) ++ labelledPairs ks pairs := by
  simp [labelledPairs]

theorem mem_labelledPairs (keywords : List String) (pairs : List (String × String))
    (x : (String × String) × Option String) (hx : x ∈ labelledPairs keywords pairs) :
    ∃ k ∈ keywords, x.2 = some k := by
  induction keywords with
  | nil => simp [labelledPairs] at hx
  | cons k ks ih =>
    rw [labelledPairs_cons, List.mem_append] at hx
    rcases hx with hx | hx
    · obtain ⟨pair, -, rfl⟩ := List.mem_map.mp hx
      exact ⟨k, List.mem_cons_self _ _, rfl⟩
    · obtain ⟨k2, hk2, hlab⟩ := ih hx
      exact ⟨k2, List.mem_cons_of_mem _ hk2, hlab⟩

theorem labelledPairs_filter (keywords : List String) (pairs : List (String × String))
    (k : String) (hnodup : keywords.Nodup) (hk : k ∈ keywords) :
    (labelledPairs keywords pairs).filter (fun x => decide (x.2 = some k))
      = pairs.map (fun pair => (pair, some k)) := by
  induction keywords with
  | nil => simp at hk
  | cons k0 ks ih =>
    rw [labelledPairs_cons, List.filter_append]
    obtain ⟨hk0, hks⟩ := List.nodup_cons.mp hnodup
    by_cases hkk : k = k0
    · subst hkk
      have hfirst : (pairs.map (fun pair => (pair, some k))).filter
          (fun x => decide (x.2 = some k)) = pairs.map (fun pair => (pair, some k)) := by
        apply List.filter_eq_self.mpr
        intro x hx
        obtain ⟨pair, -, rfl⟩ := List.mem_map.mp hx
        simp
      have hsecond : (labelledPairs ks pairs).filter (fun x => decide (x.2 = some k)) = [] := by
        apply List.filter_eq_nil_iff.mpr
        intro x hx
        obtain ⟨k2, hk2, hlab⟩ := mem_labelledPairs ks pairs x hx
        simp only [hlab, Option.some.injEq, decide_eq_true_eq]
        rintro rfl
        exact hk0 hk2
      rw [hfirst, hsecond, List.append_nil]
    · have hmem : k ∈ ks := by
        rcases List.mem_cons.mp hk with h | h
        · exact absurd h hkk
        · exact h
      have hfirst : (pairs.map (fun pair => (pair, some k0))).filter
          (fun x => decide (x.2 = some k)) = [] := by
        apply List.filter_eq_nil_iff.mpr
        intro x hx
        obtain ⟨pair, -, rfl⟩ := List.mem_map.mp hx
        simp only [Option.some.injEq, decide_eq_true_eq]
        exact fun h => hkk h.symm
      rw [hfirst, List.nil_append, ih hks hmem]

theorem filter_label_pairs (keywords : List String) (pairs : List (String × String))
    (log : List ImageResponse) (k : String) (hnodup : keywords.Nodup) (hk : k ∈ keywords)
    (hlog : log.map imageEntryOf = labelledPairs keywords pairs) :
    (log.filter (fun entry => decide (entry.keyword = some k))).map
        (fun entry => (entry.leftImage, entry.rightImage))
      = pairs := by
  have hcomm : (log.filter (fun entry => decide (entry.keyword = some k))).map imageEntryOf
      = pairs.map (fun pair => (pair, some k)) := by
    rw [← labelledPairs_filter keywords pairs k hnodup hk, ← hlog, List.filter_map]
    rfl
  have hfst : (log.filter (fun entry => decide (entry.keyword = some k))).map
      (fun entry => (entry.leftImage, entry.rightImage))
      = ((log.filter (fun entry => decide (entry.keyword = some k))).map imageEntryOf).map
          Prod.fst := by
    rw [List.map_map]; rfl
  rw [hfst, hcomm, List.map_map]
  exact (List.map_congr_left (fun _ _ => rfl)).trans (List.map_id pairs)

theorem flatten_filter_label (keywords : List String) (pairs : List (String × String))
    (log : List ImageResponse) (hnodup : keywords.Nodup)
    (hlog : log.map imageEntryOf = labelledPairs keywords pairs) :
    (keywords.map (fun k => log.filter (fun entry => decide (entry.keyword = some k)))).flatten
      = log := by
  induction keywords generalizing log with
  | nil =>
    have hnil : log = [] := by
      have hmap : log.map imageEntryOf = [] := by rw [hlog]; rfl
      exact List.map_eq_nil_iff.mp hmap
    simp [hnil]
  | cons k0 ks ih =>
    obtain ⟨hk0, hks⟩ := List.nodup_cons.mp hnodup
    rw [labelledPairs_cons] at hlog
    obtain ⟨l1, l2, rfl, h1, h2⟩ := List.map_eq_append_iff.mp hlog
    have hl1 : ∀ e ∈ l1, e.keyword = some k0 := by
      intro e he
      have hmem : imageEntryOf e ∈ pairs.map (fun pair => (pair, some k0)) := by
        rw [← h1]; exact List.mem_map_of_mem _ he
      obtain ⟨pair, -, hpair⟩ := List.mem_map.mp hmem
      have := congrArg Prod.snd hpair
      simpa [imageEntryOf] using this.symm
    have hl2 : ∀ e ∈ l2, ∃ k ∈ ks, e.keyword = some k := by
      intro e he
      have hmem : imageEntryOf e ∈ labelledPairs ks pairs := by
        rw [← h2]; exact List.mem_map_of_mem _ he
      exact mem_labelledPairs ks pairs _ hmem
    have hhead : (l1 ++ l2).filter (fun entry => decide (entry.keyword = some k0)) = l1 := by
      rw [List.filter_append]
      have ha : l1.filter (fun entry => decide (entry.keyword = some k0)) = l1 := by
        apply List.filter_eq_self.mpr
        intro e he
        simp [hl1 e he]
      have hb : l2.filter (fun entry => decide (entry.keyword = some k0)) = [] := by
        apply List.filter_eq_nil_iff.mpr
        intro e he
        obtain ⟨k, hk, hlab⟩ := hl2 e he
        simp only [hlab, Option.some.injEq, decide_eq_true_eq]
        rintro rfl
        exact hk0 hk
      rw [ha, hb, List.append_nil]
    have htail : ks.map (fun k => (l1 ++ l2).filter (fun entry => decide (entry.keyword = some k)))
        = ks.map (fun k => l2.filter (fun entry => decide (entry.keyword = some k))) := by
      apply List.map_congr_left
      intro k hk
      rw [List.filter_append]
      have ha : l1.filter (fun entry => decide (entry.keyword = some k)) = [] := by
        apply List.filter_eq_nil_iff.mpr
        intro e he
        simp only [hl1 e he, Option.some.injEq, decide_eq_true_eq]
        rintro rfl
        exact hk0 hk
      rw [ha, List.nil_append]
    rw [List.map_cons, List.flatten_cons, hhead, htail, ih l2 hks h2]

theorem jsGet_jsSet {α : Type} (obj : List (String × α)) (key : String) (value : α)
    (k : String) :
    jsGet (jsSet obj key value) k = if k = key then some value else jsGet obj k := by
  induction obj with
  | nil =>
    by_cases h : k = key
    · simp [jsSet, jsGet, List.lookup, h]
    · have hb : (k == key) = false := beq_eq_false_iff_ne.mpr h
      simp [jsSet, jsGet, List.lookup, h, hb]
  | cons head rest ih =>
    obtain ⟨k0, v0⟩ := head
    simp only [jsGet] at ih
    by_cases h0 : k0 = key
    · subst h0
      by_cases h : k = k0
      · simp [jsSet, jsGet, List.lookup, h]
      · have hb : (k == k0) = false := beq_eq_false_iff_ne.mpr h
        simp [jsSet, jsGet, List.lookup, h, hb]
    · simp only [jsSet, if_neg h0, jsGet, List.lookup]
      by_cases h : k = k0
      · subst h
        have hne : ¬ k = key := h0
        simp [hne]
      · have hb : (k == k0) = false := beq_eq_false_iff_ne.mpr h
        simp only [hb]
        exact ih

theorem jsSet_fresh {α : Type} (obj : List (String × α)) (key : String) (value : α)
    (h : key ∉ obj.map Prod.fst) : jsSet obj key value = obj ++ [(key, value)] := by
  induction obj with
  | nil => rfl
  | cons head rest ih =>
    obtain ⟨k0, v0⟩ := head
    simp only [List.map_cons, List.mem_cons, not_or] at h
    have hne : ¬ k0 = key := fun hk => h.1 hk.symm
    simp only [jsSet, if_neg hne, ih h.2, List.cons_append]

theorem perKeyword_jsGet (env : Env) (log : List ImageResponse) (imgs : List String)
    (keywords : List String) (acc : PerKeyword) (k : String) :
    jsGet (keywords.foldl (perKeywordStep env log imgs) acc).imageMatrices k
        = (if k ∈ keywords then
            some (env.createComparisonMatrix
              (.imageLog (log.filter (fun entry => decide (entry.keyword = some k))))
              imgs "imageResponseTimes")
          else jsGet acc.imageMatrices k)
    ∧ jsGet (keywords.foldl (perKeywordStep env log imgs) acc).imageEigenvectors k
        = (if k ∈ keywords then
            some (env.calculateEigenvector (env.createComparisonMatrix
              (.imageLog (log.filter (fun entry => decide (entry.keyword = some k))))
              imgs "imageResponseTimes"))
          else jsGet acc.imageEigenvectors k) := by
  induction keywords generalizing acc with
  | nil => simp
  | cons k0 ks ih =>
    rw [List.foldl_cons]
    obtain ⟨h1, h2⟩ := ih (perKeywordStep env log imgs acc k0)
    rw [h1, h2]
    by_cases hks : k ∈ ks
    · simp [hks]
    · by_cases hk0 : k = k0
      · subst hk0
        simp [hks, perKeywordStep, jsGet_jsSet]
      · simp [hks, hk0, perKeywordStep, jsGet_jsSet]

theorem perKeyword_nodup (env : Env) (log : List ImageResponse) (imgs : List String)
    (keywords : List String) (acc : PerKeyword) (hnodup : keywords.Nodup)
    (hm : ∀ k ∈ keywords, k ∉ acc.imageMatrices.map Prod.fst)
    (he : ∀ k ∈ keywords, k ∉ acc.imageEigenvectors.map Prod.fst) :
    (keywords.foldl (perKeywordStep env log imgs) acc).imageMatrices
        = acc.imageMatrices ++ keywords.map (fun k =>
            (k, env.createComparisonMatrix
              (.imageLog (log.filter (fun entry => decide (entry.keyword = some k))))
              imgs "imageResponseTimes"))
    ∧ (keywords.foldl (perKeywordStep env log imgs) acc).imageEigenvectors
        = acc.imageEigenvectors ++ keywords.map (fun k =>
            (k, env.calculateEigenvector (env.createComparisonMatrix
              (.imageLog (log.filter (fun entry => decide (entry.keyword = some k))))
              imgs "imageResponseTimes"))) := by
  induction keywords generalizing acc with
  | nil => simp
  | cons k0 ks ih =>
    obtain ⟨hk0, hks⟩ := List.nodup_cons.mp hnodup
    have hm0 := hm k0 (List.mem_cons_self _ _)
    have he0 := he k0 (List.mem_cons_self _ _)
    have hstepm : (perKeywordStep env log imgs acc k0).imageMatrices
        = acc.imageMatrices ++ [(k0, env.createComparisonMatrix
            (.imageLog (log.filter (fun entry => decide (entry.keyword = some k0))))
            imgs "imageResponseTimes")] := by
      simp only [perKeywordStep]
      exact jsSet_fresh _ _ _ hm0
    have hstepe : (perKeywordStep env log imgs acc k0).imageEigenvectors
        = acc.imageEigenvectors ++ [(k0, env.calculateEigenvector (env.createComparisonMatrix
            (.imageLog (log.filter (fun entry => decide (entry.keyword = some k0))))
            imgs "imageResponseTimes"))] := by
      simp only [perKeywordStep]
      exact jsSet_fresh _ _ _ he0
    rw [List.foldl_cons]
    obtain ⟨h1, h2⟩ := ih (perKeywordStep env log imgs acc k0) hks
      (by
        intro k hk
        rw [hstepm, List.map_append, List.mem_append, not_or]
        refine ⟨hm k (List.mem_cons_of_mem _ hk), ?_⟩
        simp only [List.map_cons, List.map_nil, List.mem_singleton]
        rintro rfl
        exact hk0 hk)
      (by
        intro k hk
        rw [hstepe, List.map_append, List.mem_append, not_or]
        refine ⟨he k (List.mem_cons_of_mem _ hk), ?_⟩
        simp only [List.map_cons, List.map_nil, List.mem_singleton]
        rintro rfl
        exact hk0 hk)
    rw [h1, h2, hstepm, hstepe]
    simp

theorem displayNextImagePair_keeps (env : Env) (p q : ItemPage)
    (h : displayNextImagePair env p = some q) :
    q.keywords = p.keywords ∧ q.storage = p.storage ∧ q.location = p.location := by
  unfold displayNextImagePair at h
  split at h
  · exact absurd h (by simp)
  · injection h with h
    subst h
    exact ⟨rfl, rfl, rfl⟩

theorem handleImageClick_keeps (env : Env) (selectedImage : String) (p q : ItemPage)
    (h : handleImageClick env selectedImage p = some q) :
    q.keywords = p.keywords
    ∧ ((q.storage = p.storage ∧ q.location = p.location)
      ∨ q.storage.keywords = some p.keywords) := by
  unfold handleImageClick at h
  split at h
  · exact absurd h (by simp)
  · split at h
    · obtain ⟨h1, h2, h3⟩ := displayNextImagePair_keeps env _ q h
      exact ⟨h1, Or.inl ⟨h2, h3⟩⟩
    · split at h
      · obtain ⟨h1, h2, h3⟩ := displayNextImagePair_keeps env _ q h
        exact ⟨h1, Or.inl ⟨h2, h3⟩⟩
      · injection h with h
        subst h
        exact ⟨rfl, Or.inr rfl⟩

theorem runImageClicks_none (env : Env) (clicks : List Side) :
    runImageClicks env none clicks = none := by
  induction clicks with
  | nil => rfl
  | cons side rest ih => exact ih

theorem runImageClicks_keeps (env : Env) (keywords : List String) (clicks : List Side)
    (p q : ItemPage) (h : runImageClicks env (some p) clicks = some q)
    (hp : p.keywords = keywords ∧ (p.location = none ∨ p.storage.keywords = some keywords)) :
    q.keywords = keywords ∧ (q.location = none ∨ q.storage.keywords = some keywords) := by
  induction clicks generalizing p with
  | nil =>
    have hq : p = q := by injection h
    subst hq
    exact hp
  | cons side rest ih =>
    rw [runImageClicks_cons] at h
    cases hstep : clickImage env p side with
    | none =>
      rw [hstep, runImageClicks_none] at h
      exact absurd h (by simp)
    | some p1 =>
      rw [hstep] at h
      apply ih p1 h
      have hkeep : p1.keywords = p.keywords
          ∧ ((p1.storage = p.storage ∧ p1.location = p.location)
            ∨ p1.storage.keywords = some p.keywords) := by
        cases side
        · exact handleImageClick_keeps env _ p p1 hstep
        · exact handleImageClick_keeps env _ p p1 hstep
      obtain ⟨hk, hcase⟩ := hkeep
      refine ⟨hk.trans hp.1, ?_⟩
      rcases hcase with ⟨hst, hloc⟩ | hsaved
      · rcases hp.2 with hnone | hkw
        · exact Or.inl (hloc.trans hnone)
        · exact Or.inr (by rw [hst]; exact hkw)
      · exact Or.inr (by rw [hsaved, hp.1])

theorem initializeCompletePage_completed (env : Env) (storage : LocalStorage)
    (data : CompleteData) (h : initializeCompletePage env storage = .completed data) :
    storage.keywords.getD [] ≠ [] ∧ storage.keywordResponseTimes.getD [] ≠ []
    ∧ storage.responseTimes.getD [] ≠ [] ∧ storage.images.getD [] ≠ []
    ∧ data.keywordMatrix
        = env.createComparisonMatrix (.keywordLog (storage.keywordResponseTimes.getD []))
            (storage.keywords.getD []) "keywordResponseTimes"
    ∧ data.keywordEigenvector = env.calculateEigenvector data.keywordMatrix
    ∧ data.perKeyword
        = (storage.keywords.getD []).foldl
            (perKeywordStep env (storage.responseTimes.getD []) (storage.images.getD []))
            { imageMatrices := [], imageEigenvectors := [] }
    ∧ data.imageScores
        = imageScores (storage.keywords.getD []) (storage.images.getD [])
            data.keywordEigenvector (jsGet data.perKeyword.imageEigenvectors) := by
  unfold initializeCompletePage at h
  simp only at h
  split at h
  · exact absurd h (by simp)
  · rename_i hguard
    injection h with h
    subst h
    simp only [List.length_eq_zero, not_or] at hguard
    exact ⟨hguard.1, hguard.2.1, hguard.2.2.1, hguard.2.2.2, rfl, rfl, rfl, rfl⟩

/-- C9 (amended): take pairwise distinct keywords and a run of the image page
that ends at its first `saveResults`. Whenever `initializeCompletePage` on the
saved items gets past its guard, the matrix it stores for each keyword `k`, in
keyword order, is `createComparisonMatrix` applied to the sublist of the saved
log labelled `k`, in the original order, and to the image list, whatever
function `createComparisonMatrix` is; that sublist has exactly one response per
generated image pair, in generation order; the selections concatenated in
keyword order are the whole log; and the selections of two different keyword
positions share no response. -/
theorem complete_page_selections (env : Env) (keywords : List String)
    (leftSrc rightSrc keywordText : String) (storage : LocalStorage) (clicks : List Side)
    (q : ItemPage) (data : CompleteData)
    (hnodup : keywords.Nodup)
    (hrun : runImageClicks env
      (initializeItemQuestionPage env keywords leftSrc rightSrc keywordText storage) clicks
        = some q)
    (hsaved : q.location = some "complete.html")
    (hfirst : ∀ n, n < clicks.length → ∀ q0,
      runImageClicks env
        (initializeItemQuestionPage env keywords leftSrc rightSrc keywordText storage)
        (clicks.take n) = some q0 → q0.location = none)
    (hdata : initializeCompletePage env q.storage = .completed data) :
    ∃ log : List ImageResponse, q.storage.responseTimes = some log
      ∧ data.perKeyword.imageMatrices
          = keywords.map (fun k =>
              (k, env.createComparisonMatrix
                (.imageLog (log.filter (fun entry => decide (entry.keyword = some k))))
                images "imageResponseTimes"))
      ∧ data.perKeyword.imageEigenvectors
          = keywords.map (fun k =>
              (k, env.calculateEigenvector (env.createComparisonMatrix
                (.imageLog (log.filter (fun entry => decide (entry.keyword = some k))))
                images "imageResponseTimes")))
      ∧ (∀ k ∈ keywords,
          (log.filter (fun entry => decide (entry.keyword = some k))).map
              (fun entry => (entry.leftImage, entry.rightImage))
            = env.generateCombinations images)
      ∧ (keywords.map
            (fun k => log.filter (fun entry => decide (entry.keyword = some k)))).flatten
          = log
      ∧ (∀ (r1 r2 : Nat) (h1 : r1 < keywords.length) (h2 : r2 < keywords.length), r1 ≠ r2 →
          ∀ e ∈ log.filter (fun entry => decide (entry.keyword = some keywords[r1])),
            e ∉ log.filter (fun entry => decide (entry.keyword = some keywords[r2]))) := by
  obtain ⟨hkw, -, -, -, -, -, hper, -⟩ :=
    initializeCompletePage_completed env q.storage data hdata
  -- the page was initialised, so the pair list is not empty
  cases hinit : initializeItemQuestionPage env keywords leftSrc rightSrc keywordText storage with
  | none =>
    rw [hinit, runImageClicks_none] at hrun
    exact absurd hrun (by simp)
  | some p0 =>
    have hP : env.generateCombinations images ≠ [] := by
      intro hempty
      simp [initializeItemQuestionPage, displayNextImagePair, hempty] at hinit
    have hp0 : p0.keywords = keywords ∧ (p0.location = none ∨ p0.storage.keywords = some keywords) := by
      obtain ⟨h1, -, h3⟩ := displayNextImagePair_keeps env _ p0 hinit
      exact ⟨h1, Or.inl h3⟩
    rw [hinit] at hrun hfirst
    have hq := runImageClicks_keeps env keywords clicks p0 q hrun hp0
    have hstored : q.storage.keywords = some keywords := by
      rcases hq.2 with hnone | hst
      · rw [hnone] at hsaved; exact absurd hsaved (by simp)
      · exact hst
    have hK : keywords ≠ [] := by
      rw [hstored] at hkw; exact hkw
    obtain ⟨p1, hp1, hround0⟩ := initializeItemQuestionPage_round env keywords leftSrc rightSrc
      keywordText storage hK hP
    rw [hinit] at hp1
    have hp01 : p1 = p0 := by injection hp1.symm
    subst hp01
    -- the first save happens after exactly one click per keyword and pair
    have hlen : clicks.length = keywords.length * (env.generateCombinations images).length := by
      rcases Nat.lt_trichotomy clicks.length
        (keywords.length * (env.generateCombinations images).length) with hlt | heq | hgt
      · obtain ⟨q1, hq1, hround⟩ := runImageClicks_before env _ keywords storage clicks 0 p1
          hround0 (by omega)
        rw [hrun] at hq1
        have hqq : q = q1 := by injection hq1
        subst hqq
        rw [hround.2.2.2.2.2.2.2.2] at hsaved
        exact absurd hsaved (by simp)
      · exact heq
      · have htake : (clicks.take
            (keywords.length * (env.generateCombinations images).length)).length
            = keywords.length * (env.generateCombinations images).length := by
          rw [List.length_take]; omega
        obtain ⟨q1, hq1, hdone⟩ := runImageClicks_done env _ keywords storage
          (clicks.take (keywords.length * (env.generateCombinations images).length)) 0 p1
          hround0 (by omega)
        have hnone := hfirst _ hgt q1 hq1
        rw [hdone.2.2] at hnone
        exact absurd hnone (by simp)
    obtain ⟨q1, hq1, hlog, hst, -⟩ := runImageClicks_done env _ keywords storage clicks 0 p1
      hround0 (by omega)
    rw [hrun] at hq1
    have hqq : q = q1 := by injection hq1
    subst hqq
    have hresp : q.storage.responseTimes = some q.imageResponseTimes := by rw [hst]
    have himgs : q.storage.images = some images := by rw [hst]
    have hobjs := perKeyword_nodup env q.imageResponseTimes images keywords
      { imageMatrices := [], imageEigenvectors := [] } hnodup (by simp) (by simp)
    rw [hresp, hstored, himgs] at hper
    simp only [Option.getD_some] at hper
    refine ⟨q.imageResponseTimes, hresp, ?_, ?_, ?_, ?_, ?_⟩
    · rw [hper, hobjs.1]; rfl
    · rw [hper, hobjs.2]; rfl
    · intro k hk
      exact filter_label_pairs keywords _ _ k hnodup hk hlog
    · exact flatten_filter_label keywords _ _ hnodup hlog
    · intro r1 r2 h1 h2 hne e he1 he2
      have hl1 := (List.mem_filter.mp he1).2
      have hl2 := (List.mem_filter.mp he2).2
      simp only [decide_eq_true_eq] at hl1 hl2
      rw [hl1] at hl2
      have heq : keywords[r1] = keywords[r2] := by injection hl2
      exact hne ((List.Nodup.getElem_inj_iff hnodup).mp heq)

/-- C9, as stated, fails: the listeners stay registered after `saveResults`. In a
round over the two keywords `a` and `b`, a thirteenth click records a second
response for the last pair and saves again; the completion stage gets past its
guard on that log and builds the matrix of `b` from seven responses for six
generated pairs. -/
theorem complete_page_selection_after_extra_click :
    ∃ q data log,
      runImageClicks sampleEnv
          (initializeItemQuestionPage sampleEnv ["a", "b"] "" "" "" sampleStorage)
          (List.replicate 13 Side.left) = some q
      ∧ q.location = some "complete.html"
      ∧ q.storage.responseTimes = some log
      ∧ initializeCompletePage sampleEnv q.storage = .completed data
      ∧ jsGet data.perKeyword.imageMatrices "b"
          = some (sampleEnv.createComparisonMatrix
              (.imageLog (log.filter (fun entry => decide (entry.keyword = some "b"))))
              images "imageResponseTimes")
      ∧ (log.filter (fun entry => decide (entry.keyword = some "b"))).length = 7
      ∧ (sampleEnv.generateCombinations images).length = 6
      ∧ (log.filter (fun entry => decide (entry.keyword = some "b"))).map
            (fun entry => (entry.leftImage, entry.rightImage))
          ≠ sampleEnv.generateCombinations images := by
  refine ⟨_, _, _, rfl, rfl, rfl, rfl, rfl, rfl, rfl, ?_⟩
  intro h
  have hlen := congrArg List.length h
  rw [List.length_map] at hlen
  exact absurd hlen (by decide)

/-- C2: for every stored state, `initializeCompletePage` computes its data
exactly when the four stored items are all present and non-empty, and
otherwise, and only then, its whole result is the warning
`One or more data sets are missing!`, with nothing built. The data it computes
are the keyword matrix built from the keyword log, its priority vector, for each
keyword the matrix built from the image responses labelled with it and the
priority vector of that matrix, and one score per image, a non-empty list, each
score being the weighted sum of the stored priority vectors. -/
theorem complete_page_guard (env : Env) (storage : LocalStorage) :
    ((∃ data, initializeCompletePage env storage = .completed data)
      ↔ ((∃ l, storage.keywordResponseTimes = some l ∧ l ≠ [])
        ∧ (∃ l, storage.responseTimes = some l ∧ l ≠ [])
        ∧ (∃ l, storage.keywords = some l ∧ l ≠ [])
        ∧ (∃ l, storage.images = some l ∧ l ≠ [])))
    ∧ (initializeCompletePage env storage = .missingData "One or more data sets are missing!"
      ↔ ¬ ((∃ l, storage.keywordResponseTimes = some l ∧ l ≠ [])
        ∧ (∃ l, storage.responseTimes = some l ∧ l ≠ [])
        ∧ (∃ l, storage.keywords = some l ∧ l ≠ [])
        ∧ (∃ l, storage.images = some l ∧ l ≠ [])))
    ∧ (∀ data, initializeCompletePage env storage = .completed data →
        data.keywordMatrix
          = env.createComparisonMatrix (.keywordLog (storage.keywordResponseTimes.getD []))
              (storage.keywords.getD []) "keywordResponseTimes"
        ∧ data.keywordEigenvector = env.calculateEigenvector data.keywordMatrix
        ∧ (∀ k ∈ storage.keywords.getD [],
            jsGet data.perKeyword.imageMatrices k
              = some (env.createComparisonMatrix
                  (.imageLog ((storage.responseTimes.getD []).filter
                    (fun entry => decide (entry.keyword = some k))))
                  (storage.images.getD []) "imageResponseTimes")
            ∧ jsGet data.perKeyword.imageEigenvectors k
              = some (env.calculateEigenvector (env.createComparisonMatrix
                  (.imageLog ((storage.responseTimes.getD []).filter
                    (fun entry => decide (entry.keyword = some k))))
                  (storage.images.getD []) "imageResponseTimes")))
        ∧ data.imageScores ≠ []
        ∧ data.imageScores.length = (storage.images.getD []).length
        ∧ (∀ i : Nat, data.imageScores[i]?
            = if i < (storage.images.getD []).length then
                some (∑ k in Finset.range (storage.keywords.getD []).length,
                  ((((storage.keywords.getD [])[k]?).bind
                      (jsGet data.perKeyword.imageEigenvectors)).bind
                        (fun vec => vec[i]?)).getD 0
                    * (data.keywordEigenvector[k]?).getD 0)
              else none)) := by
  have present : ∀ {α : Type} (o : Option (List α)),
      (∃ l, o = some l ∧ l ≠ []) ↔ (o.getD []).length ≠ 0 := by
    intro α o
    cases o with
    | none => simp
    | some l => simp
  refine ⟨?_, ?_, ?_⟩
  · rw [present, present, present, present]
    unfold initializeCompletePage
    simp only
    split
    · rename_i hguard
      constructor
      · rintro ⟨data, h⟩
        exact absurd h (by simp)
      · rintro ⟨h1, h2, h3, h4⟩
        rcases hguard with h | h | h | h
        · exact absurd h h3
        · exact absurd h h1
        · exact absurd h h2
        · exact absurd h h4
    · rename_i hguard
      simp only [not_or] at hguard
      constructor
      · intro _
        exact ⟨hguard.2.1, hguard.2.2.1, hguard.1, hguard.2.2.2⟩
      · intro _
        exact ⟨_, rfl⟩
  · rw [present, present, present, present]
    unfold initializeCompletePage
    simp only
    split
    · rename_i hguard
      constructor
      · rintro - ⟨h1, h2, h3, h4⟩
        rcases hguard with h | h | h | h
        · exact absurd h h3
        · exact absurd h h1
        · exact absurd h h2
        · exact absurd h h4
      · intro _
        rfl
    · rename_i hguard
      simp only [not_or] at hguard
      constructor
      · intro h
        exact absurd h (by simp)
      · intro h
        exact absurd ⟨hguard.2.1, hguard.2.2.1, hguard.1, hguard.2.2.2⟩ h
  · intro data hdata
    obtain ⟨-, -, -, himgs, hmat, hvec, hper, hscores⟩ :=
      initializeCompletePage_completed env storage data hdata
    refine ⟨hmat, hvec, ?_, ?_, ?_, ?_⟩
    · intro k hk
      have hget := perKeyword_jsGet env (storage.responseTimes.getD []) (storage.images.getD [])
        (storage.keywords.getD []) { imageMatrices := [], imageEigenvectors := [] } k
      rw [← hper, if_pos hk, if_pos hk] at hget
      exact hget
    · intro hnil
      have hlen := imageScores_length (storage.keywords.getD []) (storage.images.getD [])
        data.keywordEigenvector (jsGet data.perKeyword.imageEigenvectors)
      rw [← hscores, hnil] at hlen
      exact himgs (List.length_eq_zero.mp hlen.symm)
    · rw [hscores]
      exact imageScores_length _ _ _ _
    · intro i
      rw [hscores]
      exact imageScores_getElem? _ _ _ _ i

/-! ## loadKeywords -/

theorem getLast?_dropWhile {α : Type} (p : α → Bool) (l : List α)
    (h : l.dropWhile p ≠ []) : (l.dropWhile p).getLast? = l.getLast? := by
  induction l with
  | nil => rfl
  | cons x xs ih =>
    by_cases hx : p x = true
    · have hdrop : (x :: xs).dropWhile p = xs.dropWhile p := by simp [List.dropWhile, hx]
      rw [hdrop] at h ⊢
      have hxs : xs ≠ [] := by
        intro hnil
        rw [hnil] at h
        exact h rfl
      rw [ih h]
      cases xs with
      | nil => exact absurd rfl hxs
      | cons y ys => simp [List.getLast?_cons_cons]
    · have hdrop : (x :: xs).dropWhile p = x :: xs := by simp [List.dropWhile, hx]
      rw [hdrop]

theorem isTrimmed_jsTrim (s : String) : isTrimmed (jsTrim s) = true := by
  have hfront := List.head?_dropWhile_not isJsWhitespace s.data
  have hback := List.head?_dropWhile_not isJsWhitespace (s.data.dropWhile isJsWhitespace).reverse
  simp only [isTrimmed, jsTrim, trimChars, Bool.and_eq_true]
  constructor
  · rw [List.head?_reverse]
    by_cases hnil : (s.data.dropWhile isJsWhitespace).reverse.dropWhile isJsWhitespace = []
    · rw [hnil]; rfl
    · rw [getLast?_dropWhile _ _ hnil, List.getLast?_reverse]
      cases hc : (s.data.dropWhile isJsWhitespace).head? with
      | none => rfl
      | some c =>
        rw [hc] at hfront
        simp only at hfront
        simp [hfront]
  · rw [List.getLast?_reverse]
    cases hc : ((s.data.dropWhile isJsWhitespace).reverse.dropWhile isJsWhitespace).head? with
    | none => rfl
    | some c =>
      rw [hc] at hback
      simp only at hback
      simp [hback]

/-- C6 (amended): for every text of the keyword file, every string of the list
returned by `loadKeywords` is trimmed: it has no leading and no trailing
whitespace. -/
theorem loadKeywords_trimmed (text : String) (s : String)
    (hs : s ∈ loadKeywords (some text)) : isTrimmed s = true := by
  simp only [loadKeywords, List.mem_map] at hs
  obtain ⟨piece, -, rfl⟩ := hs
  exact isTrimmed_jsTrim piece

/-- An entry of the list loaded from a text with blanks and an empty piece. -/
theorem loadKeywords_trimmed_witness :
    "b" ∈ loadKeywords (some " a, b ,,c") ∧ isTrimmed "b" = true :=
  ⟨by decide, loadKeywords_trimmed " a, b ,,c" "b" (by decide)⟩

/-- C6, as stated, fails: for the text `a,,b` the list returned by
`loadKeywords` contains the empty string, so not every entry is trimmed and
non-empty. -/
theorem loadKeywords_not_all_nonempty :
    ¬ (∀ (text : String) (s : String), s ∈ loadKeywords (some text) →
        isTrimmed s = true ∧ s ≠ "") := by
  intro h
  exact (h "a,,b" "" (by decide)).2 rfl

/-- C5: evaluation of the code where the keyword load has failed. `loadKeywords`
returns the empty list, yet `initializeItemQuestionPage` presents the first image
pair under the label text `undefined`, a click records a response without a
keyword, and after six clicks `saveResults` stores six such responses together
with the empty keyword list. -/
theorem image_round_runs_on_empty_universe :
    loadKeywords none = []
    ∧ (∃ q, initializeItemQuestionPage sampleEnv (loadKeywords none) "" "" "" emptyStorage = some q
        ∧ q.leftSrc = "images/image1.jpg" ∧ q.rightSrc = "images/image2.jpg"
        ∧ q.keywordText = "undefined")
    ∧ (∃ q, runImageClicks sampleEnv
          (initializeItemQuestionPage sampleEnv (loadKeywords none) "" "" "" emptyStorage)
          [Side.left] = some q
        ∧ q.imageResponseTimes.map imageEntryOf = [(("image1.jpg", "image2.jpg"), none)])
    ∧ (∃ q, runImageClicks sampleEnv
          (initializeItemQuestionPage sampleEnv (loadKeywords none) "" "" "" emptyStorage)
          [Side.left, Side.left, Side.left, Side.left, Side.left, Side.left] = some q
        ∧ q.location = some "complete.html"
        ∧ q.storage.keywords = some []
        ∧ (q.storage.responseTimes.map (fun log => log.map imageEntryOf))
            = some [(("image1.jpg", "image2.jpg"), none), (("image1.jpg", "image3.jpg"), none),
                (("image1.jpg", "image4.jpg"), none), (("image2.jpg", "image3.jpg"), none),
                (("image2.jpg", "image4.jpg"), none), (("image3.jpg", "image4.jpg"), none)]) := by
  refine ⟨rfl, ⟨_, rfl, rfl, rfl, rfl⟩, ⟨_, rfl, rfl⟩, ⟨_, rfl, rfl, rfl, rfl⟩⟩

/-! ## Instances on concrete sessions -/

/-- The hypotheses of C10 hold for the aggregation example of the spec. -/
theorem imageScores_nonneg_sum_one_witness :
    (([6 / 10, 4 / 10] : List ℚ).length = ["k1", "k2"].length
      ∧ ([6 / 10, 4 / 10] : List ℚ).sum = 1)
    ∧ ((∀ s ∈ imageScores ["k1", "k2"] ["image1.jpg", "image2.jpg"] [6 / 10, 4 / 10]
          exampleImagePriorities, 0 ≤ s)
      ∧ (imageScores ["k1", "k2"] ["image1.jpg", "image2.jpg"] [6 / 10, 4 / 10]
          exampleImagePriorities).sum = 1) :=
  ⟨⟨rfl, by norm_num⟩,
    imageScores_nonneg_sum_one ["k1", "k2"] ["image1.jpg", "image2.jpg"] [6 / 10, 4 / 10]
      exampleImagePriorities rfl
      (by intro x hx; simp at hx; rcases hx with rfl | rfl <;> norm_num)
      (by norm_num)
      (by
        intro keyword hk
        simp at hk
        rcases hk with rfl | rfl
        · exact ⟨[7 / 10, 3 / 10], by simp [exampleImagePriorities], rfl,
            by intro x hx; simp at hx; rcases hx with rfl | rfl <;> norm_num, by norm_num⟩
        · exact ⟨[2 / 10, 8 / 10], by simp [exampleImagePriorities], rfl,
            by intro x hx; simp at hx; rcases hx with rfl | rfl <;> norm_num, by norm_num⟩)⟩

/-- A keyword round over three keywords with three clicks. -/
theorem keyword_round_saved_log_witness :
    [Side.left, Side.right, Side.left].length
        = (sampleEnv.generateCombinations ["a", "b", "c"]).length
    ∧ (runKeywordClicks sampleEnv
        (initializeKeywordQuestionPage sampleEnv ["a", "b", "c"] "" "" emptyStorage)
        [Side.left, Side.right, Side.left]).location = some "item_question.html" :=
  ⟨rfl, (keyword_round_saved_log sampleEnv ["a", "b", "c"] "" "" emptyStorage
    [Side.left, Side.right, Side.left] rfl).2.1⟩

/-- A recorded keyword response of a round over two keywords. -/
theorem keyword_response_chosen_in_pair_witness :
    ∃ e, e ∈ (runKeywordClicks sampleEnv
        (initializeKeywordQuestionPage sampleEnv ["a", "b"] "" "" emptyStorage)
        [Side.right]).manager.responseTimes
      ∧ e.keyword1 = "a" ∧ e.keyword2 = "b"
      ∧ (e.selectedKeyword = e.keyword1 ∨ e.selectedKeyword = e.keyword2) :=
  ⟨_, List.mem_cons_self _ _, rfl, rfl,
    keyword_response_chosen_in_pair sampleEnv ["a", "b"] "" "" emptyStorage [Side.right] _
      (List.mem_cons_self _ _)⟩

/-- An image round for one keyword: six pairs, six clicks. -/
theorem image_round_saved_log_witness :
    (1 ≤ ["a"].length ∧ sampleEnv.generateCombinations images ≠ []
      ∧ (List.replicate 6 Side.left).length
          = ["a"].length * (sampleEnv.generateCombinations images).length)
    ∧ ∃ q, runImageClicks sampleEnv
          (initializeItemQuestionPage sampleEnv ["a"] "" "" "" emptyStorage)
          (List.replicate 6 Side.left) = some q
        ∧ q.location = some "complete.html" :=
  ⟨⟨by decide, by decide, rfl⟩,
    (image_round_saved_log sampleEnv ["a"] "" "" "" emptyStorage (List.replicate 6 Side.left)
      (by decide) (by decide) rfl).2.imp (fun _ h => ⟨h.1, h.2.1⟩)⟩

theorem runImageClicks_first_save (env : Env) (keywords : List String)
    (leftSrc rightSrc keywordText : String) (storage : LocalStorage) (clicks : List Side)
    (hK : keywords ≠ []) (hP : env.generateCombinations images ≠ [])
    (hclicks : clicks.length = keywords.length * (env.generateCombinations images).length)
    (n : Nat) (hn : n < clicks.length) (q0 : ItemPage)
    (hq0 : runImageClicks env
      (initializeItemQuestionPage env keywords leftSrc rightSrc keywordText storage)
      (clicks.take n) = some q0) :
    q0.location = none := by
  obtain ⟨p0, hp0, hround0⟩ := initializeItemQuestionPage_round env keywords leftSrc rightSrc
    keywordText storage hK hP
  rw [hp0] at hq0
  have hlen : (clicks.take n).length = n := by
    rw [List.length_take]; omega
  obtain ⟨q, hq, hround⟩ := runImageClicks_before env _ keywords storage (clicks.take n) 0 p0
    hround0 (by omega)
  rw [hq0] at hq
  have hqq : q0 = q := by injection hq
  subst hqq
  exact hround.2.2.2.2.2.2.2.2

/-- An image round over two keywords, twelve clicks, followed by the completion
stage. -/
theorem complete_page_selections_witness :
    ∃ q data log,
      runImageClicks sampleEnv
          (initializeItemQuestionPage sampleEnv ["a", "b"] "" "" "" sampleStorage)
          (List.replicate 12 Side.left) = some q
      ∧ q.location = some "complete.html"
      ∧ initializeCompletePage sampleEnv q.storage = .completed data
      ∧ q.storage.responseTimes = some log
      ∧ log.length = 12
      ∧ data.perKeyword.imageMatrices
          = ["a", "b"].map (fun k =>
              (k, sampleEnv.createComparisonMatrix
                (.imageLog (log.filter (fun entry => decide (entry.keyword = some k))))
                images "imageResponseTimes"))
      ∧ (∀ k ∈ ["a", "b"],
          (log.filter (fun entry => decide (entry.keyword = some k))).map
              (fun entry => (entry.leftImage, entry.rightImage))
            = sampleEnv.generateCombinations images)
      ∧ (["a", "b"].map
            (fun k => log.filter (fun entry => decide (entry.keyword = some k)))).flatten
          = log
      ∧ (∀ e ∈ log.filter (fun entry => decide (entry.keyword = some "a")),
          e ∉ log.filter (fun entry => decide (entry.keyword = some "b"))) := by
  obtain ⟨log, hlog, hmat, -, hpairs, hcover, hdisjoint⟩ :=
    complete_page_selections sampleEnv ["a", "b"] "" "" "" sampleStorage
      (List.replicate 12 Side.left) _ _ (by decide) rfl rfl
      (fun n hn q0 hq0 =>
        runImageClicks_first_save sampleEnv ["a", "b"] "" "" "" sampleStorage
          (List.replicate 12 Side.left) (by decide) (by decide) rfl n hn q0 hq0)
      rfl
  have hlen : log.length = 12 := by
    have hsome : some log = some _ := hlog.symm.trans rfl
    injection hsome with hsame
    rw [hsame]
    rfl
  exact ⟨_, _, log, rfl, rfl, rfl, hlog, hlen, hmat, hpairs, hcover,
    hdisjoint 0 1 (by decide) (by decide) (by decide)⟩

/-- The completion stage on the items saved by a round over two keywords: it gets
past its guard and computes one score per image. -/
theorem complete_page_guard_witness :
    ∃ data, initializeCompletePage sampleEnv sampleSavedStorage = .completed data
      ∧ data.imageScores ≠ []
      ∧ data.imageScores.length = 4 := by
  have h := (complete_page_guard sampleEnv sampleSavedStorage).2.2
  exact ⟨_, rfl, (h _ rfl).2.2.2.1, (h _ rfl).2.2.2.2.1⟩

end ResponseTime
